import Mathlib

/-!
# Select (select.cpp): deduplicated mesh loading, normalisation, selection state

A shallow embedding of `src/examples/memory/select.cpp`.

* Scalars (`float` in the source) are elements of an ordered field `K` and the
  arithmetic is exact: there is no rounding, no NaN and no signed zero, so equality
  of positions is equality of numbers.  Where the source calls `glm::length`, the
  square root of the scalar type is passed as `sqrt`; the theorems about
  `standardize` instantiate `K` with the real numbers and `sqrt` with `Real.sqrt`.
* `std::vector` is a `List` (`push_back` appends at the end), `std::unordered_map`
  is an association list searched by key equality.
* An exception thrown by `std::vector::at` is an `Except.error`; a function that
  computes with `float` has an `Outcome`, which also records a division by zero.
* The deduplication loop is given twice: `dedup` takes the `int` index arithmetic
  exactly, `dedupInt32` wraps it as the machine does; `dedupInt32_eq_dedup` relates
  the two.
* OpenGL calls, the file parser and `createBuffers` are outside the embedding.
-/

namespace Select

/-! ## Data model -/

/-- The glm three-component vector (`glm::vec3`). -/
structure vec3 (K : Type) where
  x : K
  y : K
  z : K
deriving DecidableEq, Repr

/-- The glm four-component vector (`glm::vec4`), used for RGBA colours. -/
structure vec4 (K : Type) where
  x : K
  y : K
  z : K
  a : K
deriving DecidableEq, Repr

/-- Modelled from the spec: the type `Vertex` is declared in `Select.hpp`, which is
not among the sources.  The spec (section 3) gives it one field, `position`, with
equality defined structurally over the position only. -/
structure Vertex (K : Type) where
  position : vec3 K
deriving DecidableEq, Repr

/-- The tinyobj corner record `index_t`.  Only `vertex_index` (an `int`, which may
be negative) is read by `loadObj`. -/
structure index_t where
  vertex_index : Int
deriving DecidableEq, Repr

/-- The tinyobj `mesh_t`: the corner records of one shape. -/
structure mesh_t where
  indices : List index_t
deriving DecidableEq, Repr

/-- The tinyobj `shape_t`. -/
structure shape_t where
  mesh : mesh_t
deriving DecidableEq, Repr

/-- The tinyobj `attrib_t`: the flat array of position coordinates. -/
structure attrib_t (K : Type) where
  vertices : List K
deriving DecidableEq, Repr

/-- Exceptions.  `out_of_range` is thrown by `std::vector::at`.
`DegenerateMeshError` is named by the specification only: no statement of
`select.cpp` throws it. -/
inductive Exception where
  | out_of_range
  | DegenerateMeshError
deriving DecidableEq, Repr

/-! ## The deduplication loop of `loadObj` (lines 138-169) -/

/-- The map `std::unordered_map<Vertex, GLuint> hash`. -/
abbrev HashMap (K : Type) := List (Vertex K × Nat)

/-- The members `m_vertices` and `m_indices` together with the local `hash`.
`GLuint` values are natural numbers: the value stored is `m_vertices.size()`, which
counts distinct positions reached through an `int` vertex index and so stays below
`2 ^ 32`. -/
structure LoadState (K : Type) where
  m_vertices : List (Vertex K)
  m_indices : List Nat
  hash : HashMap K
deriving DecidableEq, Repr

section Dedup

variable {K : Type} [DecidableEq K]

/-- The lookup `hash.find(vertex)`. -/
def hashFind (hash : HashMap K) (vertex : Vertex K) : Option Nat :=
  match hash with
  | [] => none
  | (w, n) :: rest => if w = vertex then some n else hashFind rest vertex

/-- The test `hash.contains(vertex)`. -/
def hashContains (hash : HashMap K) (vertex : Vertex K) : Bool :=
  (hashFind hash vertex).isSome

/-- The assignment `hash[vertex] = n`: the entry for `vertex` is created or
overwritten. -/
def hashAssign (hash : HashMap K) (vertex : Vertex K) (n : Nat) : HashMap K :=
  (vertex, n) :: hash.filter (fun p => decide (p.1 ≠ vertex))

/-- The read `hash[vertex]`: `operator[]` returns the stored value, and inserts a
value-initialised entry (0) when the key is absent. -/
def hashIndex (hash : HashMap K) (vertex : Vertex K) : Nat × HashMap K :=
  match hashFind hash vertex with
  | some n => (n, hash)
  | none => (0, (vertex, 0) :: hash)

/-- The checked access `attrib.vertices.at(n)` with an `int` argument.  The argument
is converted to `size_t`; a negative `int` becomes a value above every vector size,
so `at` throws exactly when `n < 0` or `n >= size()`. -/
def vectorAt {α : Type} (xs : List α) (n : Int) : Except Exception α :=
  if 0 ≤ n then
    match xs[n.toNat]? with
    | some a => Except.ok a
    | none => Except.error Exception.out_of_range
  else Except.error Exception.out_of_range

/-- One iteration of the inner loop (lines 148-167) for the corner `index`, with the
`int` product `3 * index.vertex_index` and the sums `startIndex + k` taken exactly.
The source computes them in a 32-bit `int`: `cornerStepInt32` has that arithmetic, and
`cornerStepInt32_eq` shows that the two agree whenever `3 * vertex_index` and
`3 * vertex_index + 2` are representable, which holds for every in-range corner of an
attribute array of fewer than `2 ^ 31` entries. -/
def cornerStep (attrib : attrib_t K) (st : LoadState K) (index : index_t) :
    Except Exception (LoadState K) :=
  let startIndex := 3 * index.vertex_index
  match vectorAt attrib.vertices (startIndex + 0) with
  | Except.error e => Except.error e
  | Except.ok vx =>
  match vectorAt attrib.vertices (startIndex + 1) with
  | Except.error e => Except.error e
  | Except.ok vy =>
  match vectorAt attrib.vertices (startIndex + 2) with
  | Except.error e => Except.error e
  | Except.ok vz =>
    let vertex : Vertex K := { position := { x := vx, y := vy, z := vz } }
    let st1 : LoadState K :=
      if !hashContains st.hash vertex then
        { m_vertices := st.m_vertices ++ [vertex]
          m_indices := st.m_indices
          hash := hashAssign st.hash vertex st.m_vertices.length }
      else st
    let r := hashIndex st1.hash vertex
    Except.ok { m_vertices := st1.m_vertices
                m_indices := st1.m_indices ++ [r.1]
                hash := r.2 }

/-- The inner loop over the corners of one shape (line 147). -/
def shapeLoop (attrib : attrib_t K) :
    List index_t → LoadState K → Except Exception (LoadState K)
  | [], st => Except.ok st
  | index :: rest, st =>
    match cornerStep attrib st index with
    | Except.ok st1 => shapeLoop attrib rest st1
    | Except.error e => Except.error e

/-- The outer loop over the shapes (line 145). -/
def shapesLoop (attrib : attrib_t K) :
    List shape_t → LoadState K → Except Exception (LoadState K)
  | [], st => Except.ok st
  | shape :: rest, st =>
    match shapeLoop attrib shape.mesh.indices st with
    | Except.ok st1 => shapesLoop attrib rest st1
    | Except.error e => Except.error e

/-- The state after `m_vertices.clear()`, `m_indices.clear()` and the declaration of
the empty `hash` (lines 138-142). -/
def initialState : LoadState K :=
  { m_vertices := [], m_indices := [], hash := [] }

/-- The deduplication part of `loadObj`: lines 138-169, before `standardize`. -/
def dedup (attrib : attrib_t K) (shapes : List shape_t) :
    Except Exception (LoadState K) :=
  shapesLoop attrib shapes initialState

/-! ### Vocabulary of the claims about the loop -/

/-- The corners in source order: shapes in order, corners of each shape in order. -/
def corners (shapes : List shape_t) : List index_t :=
  shapes.flatMap (fun shape => shape.mesh.indices)

/-- A corner references a position inside the flat attribute array. -/
def cornerInRange (attrib : attrib_t K) (index : index_t) : Prop :=
  0 ≤ index.vertex_index ∧ 3 * index.vertex_index + 2 < attrib.vertices.length

instance (attrib : attrib_t K) (index : index_t) :
    Decidable (cornerInRange attrib index) := by
  unfold cornerInRange; infer_instance

/-- Every corner of every shape is in range. -/
def InRange (attrib : attrib_t K) (shapes : List shape_t) : Prop :=
  ∀ shape ∈ shapes, ∀ index ∈ shape.mesh.indices, cornerInRange attrib index

instance (attrib : attrib_t K) (shapes : List shape_t) :
    Decidable (InRange attrib shapes) := by
  unfold InRange; infer_instance

/-- The position `(attrib[3*i], attrib[3*i+1], attrib[3*i+2])` of a corner with
vertex index `i`, when all three entries exist. -/
def cornerPosition (attrib : attrib_t K) (index : index_t) : Option (Vertex K) :=
  let i := index.vertex_index.toNat
  match attrib.vertices[3 * i]?, attrib.vertices[3 * i + 1]?,
      attrib.vertices[3 * i + 2]? with
  | some vx, some vy, some vz => some { position := { x := vx, y := vy, z := vz } }
  | _, _, _ => none

/-- The positions of a list of corners, in order (corners without a position are
skipped; there are none when all corners are in range). -/
def cornerPositions (attrib : attrib_t K) (cs : List index_t) : List (Vertex K) :=
  cs.filterMap (cornerPosition attrib)

/-- The loop invariant of the deduplication loop, relative to the list `ps` of the
positions of the corners processed so far: `m_vertices` lists the distinct positions
in first-seen order, `hash` maps each of them to its place in `m_vertices`, and the
indices expand to `ps`. -/
structure DedupInv (st : LoadState K) (ps : List (Vertex K)) : Prop where
  vertices_eq : st.m_vertices = (ps.reverse.dedup).reverse
  hash_iff : ∀ v n, hashFind st.hash v = some n ↔ st.m_vertices[n]? = some v
  indices_eq : st.m_indices.map (fun n => st.m_vertices[n]?) = ps.map some

end Dedup



/-! ### A concrete mesh: the cube -/

/-- The eight corner positions of a cube, as a flat attribute array. -/
def cubeAttrib : attrib_t ℚ :=
  { vertices := [-1, -1, -1,   1, -1, -1,   1, 1, -1,   -1, 1, -1,
                 -1, -1, 1,    1, -1, 1,    1, 1, 1,    -1, 1, 1] }

/-- The twelve triangles (36 corners) of the cube, as one shape. -/
def cubeShapes : List shape_t :=
  [ { mesh := { indices :=
      [⟨0⟩, ⟨1⟩, ⟨2⟩,  ⟨0⟩, ⟨2⟩, ⟨3⟩,  ⟨4⟩, ⟨6⟩, ⟨5⟩,  ⟨4⟩, ⟨7⟩, ⟨6⟩,
       ⟨0⟩, ⟨4⟩, ⟨5⟩,  ⟨0⟩, ⟨5⟩, ⟨1⟩,  ⟨1⟩, ⟨5⟩, ⟨6⟩,  ⟨1⟩, ⟨6⟩, ⟨2⟩,
       ⟨2⟩, ⟨6⟩, ⟨7⟩,  ⟨2⟩, ⟨7⟩, ⟨3⟩,  ⟨3⟩, ⟨7⟩, ⟨4⟩,  ⟨3⟩, ⟨4⟩, ⟨0⟩] } } ]

/-- A small mesh in two shapes: a triangle, then a corner that repeats a position
stored under another vertex index. -/
def twoShapeAttrib : attrib_t ℚ :=
  { vertices := [0, 0, 0,   1, 0, 0,   0, 1, 0,   1, 0, 0] }

/-- The shapes of the small mesh. -/
def twoShapes : List shape_t :=
  [ { mesh := { indices := [⟨0⟩, ⟨1⟩, ⟨2⟩] } }, { mesh := { indices := [⟨3⟩, ⟨0⟩] } } ]

/-! ## `standardize` (lines 197-214) -/

/-- Outcome of a member function that computes with `float`.

* `returned a`: normal return; every number in `a` is a number of `K`.
* `notFinite`: normal return, but a division by zero made the positions written to
  `m_vertices` infinite or NaN, which are not numbers of `K`.
* `thrown e`: the exception `e` left the function. -/
inductive Outcome (α : Type) where
  | returned (a : α)
  | notFinite
  | thrown (e : Exception)
deriving DecidableEq, Repr

section Standardize

variable {K : Type} [LinearOrderedField K]

/-- The value `std::numeric_limits<float>::max()`, that is `(2 ^ 24 - 1) * 2 ^ 104`. -/
def FLT_MAX : K := 340282346638528859811704183484516925440

/-- The value `std::numeric_limits<float>::lowest()`. -/
def FLT_LOWEST : K := -FLT_MAX

/-- The constructor `glm::vec3(c)`: all three components equal to `c`. -/
def vec3.splat (c : K) : vec3 K := { x := c, y := c, z := c }

/-- Component-wise `glm::max`. -/
def vec3.max (a b : vec3 K) : vec3 K :=
  { x := Max.max a.x b.x, y := Max.max a.y b.y, z := Max.max a.z b.z }

/-- Component-wise `glm::min`. -/
def vec3.min (a b : vec3 K) : vec3 K :=
  { x := Min.min a.x b.x, y := Min.min a.y b.y, z := Min.min a.z b.z }

/-- Vector sum. -/
def vec3.add (a b : vec3 K) : vec3 K := { x := a.x + b.x, y := a.y + b.y, z := a.z + b.z }

/-- Vector difference. -/
def vec3.sub (a b : vec3 K) : vec3 K := { x := a.x - b.x, y := a.y - b.y, z := a.z - b.z }

/-- Vector times scalar. -/
def vec3.scale (a : vec3 K) (s : K) : vec3 K := { x := a.x * s, y := a.y * s, z := a.z * s }

/-- Vector divided by scalar. -/
def vec3.divide (a : vec3 K) (s : K) : vec3 K := { x := a.x / s, y := a.y / s, z := a.z / s }

/-- The function `glm::length`: the square root of the dot product of `v` with
itself.  `sqrt` is the square root of the scalar type. -/
def length (sqrt : K → K) (v : vec3 K) : K :=
  sqrt (v.x * v.x + v.y * v.y + v.z * v.z)

/-- The locals `max` and `min` of `standardize`. -/
structure Bounds (K : Type) where
  max : vec3 K
  min : vec3 K

/-- The bounds loop (lines 201-206): `max` starts at `lowest()`, `min` at `max()`,
and every vertex is folded in. -/
def getBounds (m_vertices : List (Vertex K)) : Bounds K :=
  m_vertices.foldl
    (fun b vertex =>
      { max := vec3.max b.max vertex.position, min := vec3.min b.min vertex.position })
    { max := vec3.splat FLT_LOWEST, min := vec3.splat FLT_MAX }

/-- The local `center` (line 209): `(min + max) / 2.0f`. -/
def centerOf (b : Bounds K) : vec3 K := (b.min.add b.max).divide 2

/-- The `float` quotient `a / b` as a number of `K`: there is none when `b` is
zero (the machine quotient is then infinite or NaN). -/
def floatDiv (a b : K) : Option K := if b = 0 then none else some (a / b)

/-- The local `scaling` (line 210): `0.5f / glm::length(max - min)`. -/
def scalingOf (sqrt : K → K) (b : Bounds K) : Option K :=
  floatDiv 0.5 (length sqrt (b.max.sub b.min))

/-- The function `Select::standardize`, as a function of `m_vertices`.  With a finite
`scaling` every position becomes `(position - center) * scaling`.  With the quotient
`0.5f / 0` the product written to each vertex is infinite or NaN, so the outcome is
`notFinite` as soon as there is a vertex to write.  No statement throws. -/
def standardize (sqrt : K → K) (m_vertices : List (Vertex K)) :
    Outcome (List (Vertex K)) :=
  let b := getBounds m_vertices
  let center := centerOf b
  match scalingOf sqrt b with
  | some scaling =>
    Outcome.returned
      (m_vertices.map (fun vertex =>
        { position := (vertex.position.sub center).scale scaling }))
  | none =>
    match m_vertices with
    | [] => Outcome.returned []
    | _ :: _ => Outcome.notFinite

/-- The part of `Select::loadObj` after parsing (lines 138-171): the deduplication
loop followed by `standardize`. -/
def loadObj (sqrt : K → K) (attrib : attrib_t K) (shapes : List shape_t) :
    Outcome (LoadState K) :=
  match dedup attrib shapes with
  | Except.error e => Outcome.thrown e
  | Except.ok st =>
    match standardize sqrt st.m_vertices with
    | Outcome.returned vs =>
      Outcome.returned { m_vertices := vs, m_indices := st.m_indices, hash := st.hash }
    | Outcome.notFinite => Outcome.notFinite
    | Outcome.thrown e => Outcome.thrown e

/-! ### Vocabulary of the claims about `standardize` -/

/-- All three coordinates are values a finite `float` can have: between
`lowest()` and `max()`. -/
def vec3.InFloatRange (p : vec3 K) : Prop :=
  (FLT_LOWEST ≤ p.x ∧ p.x ≤ FLT_MAX) ∧ (FLT_LOWEST ≤ p.y ∧ p.y ≤ FLT_MAX) ∧
    (FLT_LOWEST ≤ p.z ∧ p.z ≤ FLT_MAX)

/-- Every vertex position of the mesh is in the range of `float`. -/
def InFloatRange (m_vertices : List (Vertex K)) : Prop :=
  ∀ vertex ∈ m_vertices, vertex.position.InFloatRange

/-- The bounding box is non-degenerate: `min != max`. -/
def NonDegenerate (m_vertices : List (Vertex K)) : Prop :=
  (getBounds m_vertices).min ≠ (getBounds m_vertices).max

end Standardize

/-! ## The selection state (lines 75-117) -/

/-- The enumeration `StatusSelect`. -/
inductive StatusSelect where
  | moving
  | select
deriving DecidableEq, Repr

/-- The type of the member `m_select`: status, position and colour. -/
structure SelectData (K : Type) where
  m_status : StatusSelect
  m_position : vec3 K
  m_color : vec4 K
deriving DecidableEq, Repr

/-- The members of `Select` that `onUpdate`, `onSelect`, `onxMove` and `onzMove` read
or write.  `m_timer` holds the value that `m_timer.elapsed()` returns. -/
structure SelectState (K : Type) where
  m_select : SelectData K
  m_positionCurrent : vec3 K
  m_timer : K
deriving DecidableEq, Repr

/-- Modelled from the spec: the constants `gray`, `white`, `yellow`, `m_tempo` and
`m_pInicial` are declared in `Select.hpp`, which is not among the sources.  They are
parameters: three colours (neutral gray, highlight white, highlight yellow), the
fixed interval of the blink timer and the fixed starting position. -/
structure Constants (K : Type) where
  gray : vec4 K
  white : vec4 K
  yellow : vec4 K
  m_tempo : K
  m_pInicial : vec3 K
deriving DecidableEq, Repr

section Selection

variable {K : Type} [LinearOrderedField K]

/-- The last three statements of `Select::onCreate` (lines 49-51). -/
def onCreate (c : Constants K) (s : SelectState K) : SelectState K :=
  { s with m_select :=
      { m_status := StatusSelect.moving, m_position := c.m_pInicial, m_color := c.gray } }

/-- The function `Select::onUpdate` (lines 75-90). -/
def onUpdate (c : Constants K) (s : SelectState K) : SelectState K :=
  let s1 : SelectState K := { s with m_positionCurrent := s.m_select.m_position }
  if s1.m_timer < c.m_tempo then s1
  else
    let s2 : SelectState K := { s1 with m_timer := 0 }
    if s2.m_select.m_status = StatusSelect.moving then
      if s2.m_select.m_color = c.gray then
        { s2 with m_select := { s2.m_select with m_color := c.white } }
      else
        { s2 with m_select := { s2.m_select with m_color := c.gray } }
    else s2

/-- The function `Select::onSelect` (lines 92-99). -/
def onSelect (c : Constants K) (sel : Bool) (s : SelectState K) : SelectState K :=
  if sel then
    { s with m_select :=
        { s.m_select with m_status := StatusSelect.select, m_color := c.yellow } }
  else
    { s with m_select := { s.m_select with m_status := StatusSelect.moving } }

/-- The function `Select::onxMove` (lines 101-108). -/
def onxMove (move : K) (s : SelectState K) : SelectState K :=
  if s.m_select.m_position.x + move ≥ -0.8 ∧ s.m_select.m_position.x + move ≤ 0.6 then
    { s with m_select := { s.m_select with m_position :=
        { x := s.m_select.m_position.x + move
          y := s.m_select.m_position.y
          z := s.m_select.m_position.z } } }
  else s

/-- The function `Select::onzMove` (lines 110-117). -/
def onzMove (move : K) (s : SelectState K) : SelectState K :=
  if s.m_select.m_position.z + move ≥ -0.8 ∧ s.m_select.m_position.z + move ≤ 0.6 then
    { s with m_select := { s.m_select with m_position :=
        { x := s.m_select.m_position.x
          y := s.m_select.m_position.y
          z := s.m_select.m_position.z + move } } }
  else s

/-- A call of one of the four public operations.  `onUpdate elapsed` is a call of
`onUpdate` at a moment when `m_timer.elapsed()` returns `elapsed`. -/
inductive Call (K : Type) where
  | onUpdate (elapsed : K)
  | onSelect (sel : Bool)
  | onxMove (move : K)
  | onzMove (move : K)
deriving DecidableEq, Repr

/-- The effect of one call. -/
def Call.run (c : Constants K) (call : Call K) (s : SelectState K) : SelectState K :=
  match call with
  | Call.onUpdate elapsed => Select.onUpdate c { s with m_timer := elapsed }
  | Call.onSelect sel => Select.onSelect c sel s
  | Call.onxMove move => Select.onxMove move s
  | Call.onzMove move => Select.onzMove move s

/-- The effect of a finite sequence of calls, first call first. -/
def runCalls (c : Constants K) (calls : List (Call K)) (s : SelectState K) :
    SelectState K :=
  calls.foldl (fun st call => call.run c st) s

/-- The status is `select` and the colour is `yellow`. -/
def Frozen (c : Constants K) (s : SelectState K) : Prop :=
  s.m_select.m_color = c.yellow ∧ s.m_select.m_status = StatusSelect.select

/-- Example constants: gray, white, yellow, an interval of half a second and a starting
position. -/
def exampleConstants : Constants ℚ :=
  { gray := { x := 0.5, y := 0.5, z := 0.5, a := 1 }
    white := { x := 1, y := 1, z := 1, a := 1 }
    yellow := { x := 1, y := 1, z := 0, a := 1 }
    m_tempo := 0.5
    m_pInicial := { x := 0, y := 0, z := 0 } }

/-- Example state: the state after `onCreate`. -/
def exampleState : SelectState ℚ :=
  onCreate exampleConstants
    { m_select := { m_status := StatusSelect.select
                    m_position := { x := 0, y := 0, z := 0 }
                    m_color := { x := 0, y := 0, z := 0, a := 0 } }
      m_positionCurrent := { x := 0, y := 0, z := 0 }
      m_timer := 0 }

end Selection

/-! ### Coordinates by axis (used to state facts once for `x`, `y` and `z`) -/

/-- The three coordinate axes. -/
inductive Axis where
  | x
  | y
  | z
deriving DecidableEq, Repr

/-- The coordinate of a vector along an axis. -/
def vec3.get {K : Type} (p : vec3 K) : Axis → K
  | Axis.x => p.x
  | Axis.y => p.y
  | Axis.z => p.z

/-- The list written by the second loop of `standardize` (lines 211-213) for a
finite `scaling`. -/
def rescaled {K : Type} [LinearOrderedField K] (m_vertices : List (Vertex K))
    (center : vec3 K) (scaling : K) : List (Vertex K) :=
  m_vertices.map (fun vertex =>
    { position := (vertex.position.sub center).scale scaling })

/-! ### Movement bounds, similarity transforms and first-seen rank -/

/-- The movement bounds: `-0.8 <= x <= 0.6` and `-0.8 <= z <= 0.6`. -/
def InBounds {K : Type} [LinearOrderedField K] (p : vec3 K) : Prop :=
  (-0.8 ≤ p.x ∧ p.x ≤ 0.6) ∧ (-0.8 ≤ p.z ∧ p.z ≤ 0.6)

/-- The image `s * p + t` of a position under the uniform scaling by `s` followed by
the translation by `t`. -/
def vec3.affine {K : Type} [LinearOrderedField K] (s : K) (t p : vec3 K) : vec3 K :=
  { x := s * p.x + t.x, y := s * p.y + t.y, z := s * p.z + t.z }

/-- The mesh whose vertices are `s * p + t` for the vertices `p` of `m_vertices`. -/
def transformed {K : Type} [LinearOrderedField K] (s : K) (t : vec3 K)
    (m_vertices : List (Vertex K)) : List (Vertex K) :=
  m_vertices.map (fun vertex => { position := vec3.affine s t vertex.position })

/-- The number of distinct elements of `ps` whose first occurrence precedes the first
occurrence of `p`: the distinct elements among those before place `ps.indexOf p`. -/
def firstSeenRank {α : Type} [DecidableEq α] (ps : List α) (p : α) : Nat :=
  ((ps.take (ps.indexOf p)).toFinset).card

/-! ## The deduplication loop in machine arithmetic -/

/-- The value of an `int` (32 bits, two's complement) expression whose exact value is
`n`: the exact value when it is representable, the wrapped value otherwise. -/
def wrapInt32 (n : Int) : Int := (n + 2147483648) % 4294967296 - 2147483648

/-- The conversion of an `int` to `size_t` (64 bits): reduction modulo `2 ^ 64`, so a
negative value becomes a value of at least `2 ^ 64 - 2 ^ 31`. -/
def toSizeT (n : Int) : Nat := (n % 18446744073709551616).toNat

/-- The checked access `attrib.vertices.at(n)` for the `int` value `n`, converted to
`size_t` as the call does. -/
def vectorAtInt32 {α : Type} (xs : List α) (n : Int) : Except Exception α :=
  match xs[toSizeT n]? with
  | some a => Except.ok a
  | none => Except.error Exception.out_of_range

/-- One iteration of the inner loop (lines 148-167) with the arithmetic of the
machine: `startIndex` is the `int` product `3 * index.vertex_index`, which wraps
modulo `2 ^ 32` when the exact product is not representable, and so do the sums
`startIndex + 0`, `startIndex + 1`, `startIndex + 2`. -/
def cornerStepInt32 {K : Type} [DecidableEq K] (attrib : attrib_t K) (st : LoadState K)
    (index : index_t) : Except Exception (LoadState K) :=
  let startIndex := wrapInt32 (3 * index.vertex_index)
  match vectorAtInt32 attrib.vertices (wrapInt32 (startIndex + 0)) with
  | Except.error e => Except.error e
  | Except.ok vx =>
  match vectorAtInt32 attrib.vertices (wrapInt32 (startIndex + 1)) with
  | Except.error e => Except.error e
  | Except.ok vy =>
  match vectorAtInt32 attrib.vertices (wrapInt32 (startIndex + 2)) with
  | Except.error e => Except.error e
  | Except.ok vz =>
    let vertex : Vertex K := { position := { x := vx, y := vy, z := vz } }
    let st1 : LoadState K :=
      if !hashContains st.hash vertex then
        { m_vertices := st.m_vertices ++ [vertex]
          m_indices := st.m_indices
          hash := hashAssign st.hash vertex st.m_vertices.length }
      else st
    let r := hashIndex st1.hash vertex
    Except.ok { m_vertices := st1.m_vertices
                m_indices := st1.m_indices ++ [r.1]
                hash := r.2 }

/-- The inner loop (line 147) in machine arithmetic. -/
def shapeLoopInt32 {K : Type} [DecidableEq K] (attrib : attrib_t K) :
    List index_t → LoadState K → Except Exception (LoadState K)
  | [], st => Except.ok st
  | index :: rest, st =>
    match cornerStepInt32 attrib st index with
    | Except.ok st1 => shapeLoopInt32 attrib rest st1
    | Except.error e => Except.error e

/-- The outer loop (line 145) in machine arithmetic. -/
def shapesLoopInt32 {K : Type} [DecidableEq K] (attrib : attrib_t K) :
    List shape_t → LoadState K → Except Exception (LoadState K)
  | [], st => Except.ok st
  | shape :: rest, st =>
    match shapeLoopInt32 attrib shape.mesh.indices st with
    | Except.ok st1 => shapesLoopInt32 attrib rest st1
    | Except.error e => Except.error e

/-- The deduplication part of `loadObj` (lines 138-169) in machine arithmetic. -/
def dedupInt32 {K : Type} [DecidableEq K] (attrib : attrib_t K) (shapes : List shape_t) :
    Except Exception (LoadState K) :=
  shapesLoopInt32 attrib shapes initialState

/-- The `int` computations for a corner are exact: neither `3 * vertex_index` nor
`3 * vertex_index + 2` leaves the range of `int`. -/
def NoOverflow (index : index_t) : Prop :=
  -2147483648 ≤ 3 * index.vertex_index ∧ 3 * index.vertex_index + 2 ≤ 2147483647

instance (index : index_t) : Decidable (NoOverflow index) := by
  unfold NoOverflow; infer_instance

/-- Two vertices in a flat attribute array of six entries. -/
def sixAttrib : attrib_t ℚ := { vertices := [0, 0, 0, 1, 0, 0] }

/-! ## Proofs: the deduplication loop -/

theorem hashFind_filter_ne {K : Type} [DecidableEq K] (hash : HashMap K) (v w : Vertex K) :
    hashFind (hash.filter (fun p => decide (p.1 ≠ v))) w =
      if w = v then none else hashFind hash w := by
  induction hash with
  | nil => simp [hashFind]
  | cons p rest ih =>
    obtain ⟨u, n⟩ := p
    by_cases hu : u = v
    · subst hu
      by_cases hw : w = u
      · subst hw; simp [List.filter, hashFind] at ih ⊢; simpa using ih
      · have : ¬ u = w := fun h => hw h.symm
        simp [List.filter, hashFind, hw, this] at ih ⊢; simpa [hw] using ih
    · by_cases hw : w = v
      · subst hw
        simp [List.filter, hashFind, hu] at ih ⊢; simpa using ih
      · simp [List.filter, hashFind, hu, hw] at ih ⊢
        rw [ih]

theorem vectorAt_ofNat {α : Type} (xs : List α) (n : Nat) (h : n < xs.length) :
    vectorAt xs (n : Int) = Except.ok (xs.get ⟨n, h⟩) := by
  simp [vectorAt, List.getElem?_eq_getElem h]


theorem DedupInv.initial {K : Type} [DecidableEq K] : DedupInv (initialState : LoadState K) [] := by
  constructor <;> simp [initialState, hashFind]

theorem DedupInv.mem_iff {K : Type} [DecidableEq K] {st : LoadState K} {ps : List (Vertex K)} (h : DedupInv st ps)
    (v : Vertex K) : v ∈ st.m_vertices ↔ v ∈ ps := by
  rw [h.vertices_eq]; simp

theorem DedupInv.nodup {K : Type} [DecidableEq K] {st : LoadState K} {ps : List (Vertex K)} (h : DedupInv st ps) :
    st.m_vertices.Nodup := by
  rw [h.vertices_eq]; exact List.nodup_reverse.mpr (List.nodup_dedup _)

theorem cornerPosition_of_inRange {K : Type} (attrib : attrib_t K) (index : index_t)
    (h : cornerInRange attrib index) :
    ∃ (i : Nat) (vx vy vz : K), index.vertex_index = (i : Int) ∧
      attrib.vertices[3 * i]? = some vx ∧ attrib.vertices[3 * i + 1]? = some vy ∧
      attrib.vertices[3 * i + 2]? = some vz ∧
      cornerPosition attrib index = some ⟨⟨vx, vy, vz⟩⟩ ∧
      vectorAt attrib.vertices (3 * index.vertex_index + 0) = Except.ok vx ∧
      vectorAt attrib.vertices (3 * index.vertex_index + 1) = Except.ok vy ∧
      vectorAt attrib.vertices (3 * index.vertex_index + 2) = Except.ok vz := by
  obtain ⟨h0, h2⟩ := h
  obtain ⟨i, hi⟩ := Int.eq_ofNat_of_zero_le h0
  have hlen : 3 * i + 2 < attrib.vertices.length := by
    rw [hi] at h2; exact_mod_cast h2
  have l0 : 3 * i < attrib.vertices.length := by omega
  have l1 : 3 * i + 1 < attrib.vertices.length := by omega
  refine ⟨i, attrib.vertices.get ⟨3 * i, l0⟩, attrib.vertices.get ⟨3 * i + 1, l1⟩,
    attrib.vertices.get ⟨3 * i + 2, hlen⟩, hi, ?_, ?_, ?_, ?_, ?_, ?_, ?_⟩
  · simp [List.getElem?_eq_getElem l0]
  · simp [List.getElem?_eq_getElem l1]
  · simp [List.getElem?_eq_getElem hlen]
  · simp [cornerPosition, hi, List.getElem?_eq_getElem l0, List.getElem?_eq_getElem l1,
      List.getElem?_eq_getElem hlen]
  · rw [hi]; exact_mod_cast vectorAt_ofNat attrib.vertices (3 * i) l0
  · rw [hi]; exact_mod_cast vectorAt_ofNat attrib.vertices (3 * i + 1) l1
  · rw [hi]; exact_mod_cast vectorAt_ofNat attrib.vertices (3 * i + 2) hlen


theorem getElem?_append_singleton_of_some {α : Type} (xs : List α) (a b : α) (n : Nat)
    (h : xs[n]? = some b) : (xs ++ [a])[n]? = some b := by
  obtain ⟨hlt, -⟩ := List.getElem?_eq_some.mp h
  rw [List.getElem?_append_left hlt]; exact h

theorem DedupInv.step {K : Type} [DecidableEq K] (attrib : attrib_t K) (st : LoadState K)
    (ps : List (Vertex K)) (index : index_t) (hinv : DedupInv st ps)
    (hr : cornerInRange attrib index) :
    ∃ v st1 n, cornerPosition attrib index = some v ∧
      cornerStep attrib st index = Except.ok st1 ∧
      DedupInv st1 (ps ++ [v]) ∧
      st1.m_indices = st.m_indices ++ [n] ∧
      st1.m_vertices[n]? = some v ∧
      ((v ∈ st.m_vertices ∧ st1.m_vertices = st.m_vertices) ∨
        (v ∉ st.m_vertices ∧ n = st.m_vertices.length ∧
          st1.m_vertices = st.m_vertices ++ [v])) := by
  obtain ⟨i, vx, vy, vz, -, -, -, -, hpos, a0, a1, a2⟩ := cornerPosition_of_inRange attrib index hr
  refine ⟨⟨⟨vx, vy, vz⟩⟩, ?_⟩
  have hstep : cornerStep attrib st index =
      (let vertex : Vertex K := ⟨⟨vx, vy, vz⟩⟩
       let st1 : LoadState K :=
        if !hashContains st.hash vertex then
          { m_vertices := st.m_vertices ++ [vertex]
            m_indices := st.m_indices
            hash := hashAssign st.hash vertex st.m_vertices.length }
        else st
       let r := hashIndex st1.hash vertex
       Except.ok { m_vertices := st1.m_vertices
                   m_indices := st1.m_indices ++ [r.1]
                   hash := r.2 }) := by
    simp only [cornerStep, a0, a1, a2]
  rw [hstep]
  generalize (⟨⟨vx, vy, vz⟩⟩ : Vertex K) = v at hpos ⊢
  cases hf : hashFind st.hash v with
  | some n =>
    have hn : st.m_vertices[n]? = some v := (hinv.hash_iff v n).mp hf
    have hmemv : v ∈ st.m_vertices := List.getElem?_mem hn
    have hmem : v ∈ ps := (hinv.mem_iff v).mp hmemv
    refine ⟨⟨st.m_vertices, st.m_indices ++ [n], st.hash⟩, n, hpos, ?_, ?_, rfl, hn,
      Or.inl ⟨hmemv, rfl⟩⟩
    · simp [hashContains, hashIndex, hf]
    · refine ⟨?_, hinv.hash_iff, ?_⟩
      · simp only [List.reverse_append, List.reverse_cons, List.reverse_nil, List.nil_append,
          List.singleton_append]
        rw [List.dedup_cons_of_mem (List.mem_reverse.mpr hmem)]
        exact hinv.vertices_eq
      · simp only [List.map_append, List.map_cons, List.map_nil]
        rw [hinv.indices_eq, hn]
  | none =>
    have hnot : v ∉ st.m_vertices := by
      intro hm
      obtain ⟨n, hn⟩ := List.getElem?_of_mem hm
      have := (hinv.hash_iff v n).mpr hn
      rw [hf] at this; cases this
    have hnotps : v ∉ ps := fun h => hnot ((hinv.mem_iff v).mpr h)
    have hfind : hashFind (hashAssign st.hash v st.m_vertices.length) v
        = some st.m_vertices.length := by
      simp [hashAssign, hashFind]
    refine ⟨⟨st.m_vertices ++ [v], st.m_indices ++ [st.m_vertices.length],
      hashAssign st.hash v st.m_vertices.length⟩, st.m_vertices.length, hpos, ?_, ?_, rfl,
      List.getElem?_concat_length _ _, Or.inr ⟨hnot, rfl, rfl⟩⟩
    · simp [hashContains, hashIndex, hf, hfind]
    · refine ⟨?_, ?_, ?_⟩
      · simp only [List.reverse_append, List.reverse_cons, List.reverse_nil, List.nil_append,
          List.singleton_append]
        rw [List.dedup_cons_of_not_mem (fun h => hnotps (List.mem_reverse.mp h))]
        simp only [List.reverse_cons]
        rw [← hinv.vertices_eq]
      · intro w n
        simp only [hashAssign, hashFind]
        by_cases hw : v = w
        · subst hw
          simp only [if_true]
          constructor
          · intro h; cases h; exact List.getElem?_concat_length _ _
          · intro h
            rcases Nat.lt_trichotomy n st.m_vertices.length with hlt | heq | hgt
            · rw [List.getElem?_append_left hlt] at h
              exact absurd (List.getElem?_mem h) hnot
            · rw [heq]
            · rw [List.getElem?_eq_none (by simp; omega)] at h; cases h
        · have hw2 : ¬ w = v := fun h => hw h.symm
          simp only [hw, if_false, hashFind_filter_ne, hw2]
          rw [hinv.hash_iff]
          constructor
          · intro h; exact getElem?_append_singleton_of_some _ _ _ _ h
          · intro h
            rcases Nat.lt_trichotomy n st.m_vertices.length with hlt | heq | hgt
            · rwa [List.getElem?_append_left hlt] at h
            · rw [heq, List.getElem?_concat_length] at h
              exact absurd (Option.some.inj h) hw
            · rw [List.getElem?_eq_none (by simp; omega)] at h; cases h
      · simp only [List.map_append, List.map_cons, List.map_nil,
          List.getElem?_concat_length]
        rw [← hinv.indices_eq]
        congr 1
        apply List.map_congr_left
        intro n hn
        have : (st.m_vertices[n]?) ∈ ps.map some := by
          rw [← hinv.indices_eq]; exact List.mem_map_of_mem _ hn
        obtain ⟨b, -, hb⟩ := List.mem_map.mp this
        rw [← hb]
        exact getElem?_append_singleton_of_some _ _ _ _ hb.symm


theorem shapeLoop_append {K : Type} [DecidableEq K] (attrib : attrib_t K) :
    ∀ (xs ys : List index_t) (st : LoadState K),
      shapeLoop attrib (xs ++ ys) st =
        match shapeLoop attrib xs st with
        | Except.ok st1 => shapeLoop attrib ys st1
        | Except.error e => Except.error e
  | [], ys, st => by simp [shapeLoop]
  | index :: rest, ys, st => by
    simp only [List.cons_append, shapeLoop]
    cases cornerStep attrib st index with
    | error e => rfl
    | ok st1 => exact shapeLoop_append attrib rest ys st1

theorem shapesLoop_eq_shapeLoop {K : Type} [DecidableEq K] (attrib : attrib_t K) :
    ∀ (shapes : List shape_t) (st : LoadState K),
      shapesLoop attrib shapes st = shapeLoop attrib (corners shapes) st
  | [], st => by simp [shapesLoop, shapeLoop, corners]
  | shape :: rest, st => by
    have hc : corners (shape :: rest) = shape.mesh.indices ++ corners rest := by
      simp [corners]
    rw [hc, shapeLoop_append]
    simp only [shapesLoop]
    cases shapeLoop attrib shape.mesh.indices st with
    | error e => rfl
    | ok st1 => exact shapesLoop_eq_shapeLoop attrib rest st1

theorem inRange_corners {K : Type} (attrib : attrib_t K) (shapes : List shape_t)
    (h : InRange attrib shapes) : ∀ index ∈ corners shapes, cornerInRange attrib index := by
  intro index hmem
  simp only [corners, List.mem_flatMap] at hmem
  obtain ⟨shape, hs, hi⟩ := hmem
  exact h shape hs index hi

theorem cornerPositions_map_some {K : Type} (attrib : attrib_t K) :
    ∀ (cs : List index_t), (∀ index ∈ cs, cornerInRange attrib index) →
      cs.map (cornerPosition attrib) = (cornerPositions attrib cs).map some
  | [], _ => by simp [cornerPositions]
  | index :: rest, h => by
    obtain ⟨i, vx, vy, vz, -, -, -, -, hpos, -⟩ :=
      cornerPosition_of_inRange attrib index (h index (List.mem_cons_self _ _))
    have ih := cornerPositions_map_some attrib rest
      (fun c hc => h c (List.mem_cons_of_mem _ hc))
    simp only [cornerPositions] at ih ⊢
    simp [List.filterMap_cons, hpos, ih]

theorem shapeLoop_inv {K : Type} [DecidableEq K] (attrib : attrib_t K) :
    ∀ (cs : List index_t) (st : LoadState K) (ps : List (Vertex K)),
      DedupInv st ps → (∀ index ∈ cs, cornerInRange attrib index) →
      ∃ st1, shapeLoop attrib cs st = Except.ok st1 ∧
        DedupInv st1 (ps ++ cornerPositions attrib cs)
  | [], st, ps, hinv, _ => ⟨st, rfl, by simpa [cornerPositions] using hinv⟩
  | index :: rest, st, ps, hinv, h => by
    obtain ⟨v, st1, n, hpos, hstep, hinv1, -⟩ :=
      DedupInv.step attrib st ps index hinv (h index (List.mem_cons_self _ _))
    obtain ⟨st2, hloop, hinv2⟩ := shapeLoop_inv attrib rest st1 (ps ++ [v]) hinv1
      (fun c hc => h c (List.mem_cons_of_mem _ hc))
    refine ⟨st2, ?_, ?_⟩
    · simp only [shapeLoop, hstep]; exact hloop
    · have : cornerPositions attrib (index :: rest) = v :: cornerPositions attrib rest := by
        simp [cornerPositions, List.filterMap_cons, hpos]
      rw [this]
      simpa using hinv2

theorem dedup_inv {K : Type} [DecidableEq K] (attrib : attrib_t K) (shapes : List shape_t)
    (h : InRange attrib shapes) :
    ∃ st, dedup attrib shapes = Except.ok st ∧
      DedupInv st (cornerPositions attrib (corners shapes)) := by
  obtain ⟨st, hloop, hinv⟩ := shapeLoop_inv attrib (corners shapes) initialState []
    DedupInv.initial (inRange_corners attrib shapes h)
  exact ⟨st, by rw [dedup, shapesLoop_eq_shapeLoop]; exact hloop, by simpa using hinv⟩


set_option maxRecDepth 100000 in
theorem dedup_cube :
    (dedup cubeAttrib cubeShapes).map
      (fun st => (st.m_vertices.length, st.m_indices.length)) = Except.ok (8, 36) := by
  rfl

theorem dedup_twoShapes :
    dedup twoShapeAttrib twoShapes =
      Except.ok { m_vertices := [⟨⟨0, 0, 0⟩⟩, ⟨⟨1, 0, 0⟩⟩, ⟨⟨0, 1, 0⟩⟩]
                  m_indices := [0, 1, 2, 1, 0]
                  hash := [(⟨⟨0, 1, 0⟩⟩, 2), (⟨⟨1, 0, 0⟩⟩, 1), (⟨⟨0, 0, 0⟩⟩, 0)] } := by
  rfl

theorem inRange_cube : InRange cubeAttrib cubeShapes := by decide

theorem corners_length (shapes : List shape_t) :
    (corners shapes).length = (shapes.map (fun shape => shape.mesh.indices.length)).sum := by
  induction shapes with
  | nil => rfl
  | cons shape rest ih =>
    simp only [corners, List.flatMap_cons, List.length_append, List.map_cons,
      List.sum_cons] at ih ⊢
    rw [ih]

theorem DedupInv.indices_length {K : Type} [DecidableEq K] {st : LoadState K}
    {ps : List (Vertex K)} (h : DedupInv st ps) : st.m_indices.length = ps.length := by
  have := congrArg List.length h.indices_eq
  simpa using this

theorem DedupInv.index_lt {K : Type} [DecidableEq K] {st : LoadState K}
    {ps : List (Vertex K)} (h : DedupInv st ps) :
    ∀ n ∈ st.m_indices, n < st.m_vertices.length := by
  intro n hn
  have : (st.m_vertices[n]?) ∈ ps.map some := by
    rw [← h.indices_eq]; exact List.mem_map_of_mem _ hn
  obtain ⟨b, -, hb⟩ := List.mem_map.mp this
  exact (List.getElem?_eq_some.mp hb.symm).1

theorem DedupInv.vertices_length_le {K : Type} [DecidableEq K] {st : LoadState K}
    {ps : List (Vertex K)} (h : DedupInv st ps) : st.m_vertices.length ≤ ps.length := by
  rw [h.vertices_eq, List.length_reverse]
  calc (ps.reverse.dedup).length ≤ ps.reverse.length := (List.dedup_sublist _).length_le
    _ = ps.length := List.length_reverse _

theorem DedupInv.vertices_length {K : Type} [DecidableEq K] {st : LoadState K}
    {ps : List (Vertex K)} (h : DedupInv st ps) :
    st.m_vertices.length = ps.toFinset.card := by
  rw [← List.toFinset_card_of_nodup h.nodup]
  congr 1
  ext v
  simp [h.mem_iff]

theorem cornerPositions_length {K : Type} (attrib : attrib_t K) (cs : List index_t)
    (h : ∀ index ∈ cs, cornerInRange attrib index) :
    (cornerPositions attrib cs).length = cs.length := by
  have := congrArg List.length (cornerPositions_map_some attrib cs h)
  simpa using this.symm

/-- C1: round trip of the deduplication loop.  When every corner is in range the
loop returns normally, and for every corner number `k` in source order (shapes
concatenated) the `k`-th index selects in `m_vertices` exactly the position
`(attrib[3*i], attrib[3*i+1], attrib[3*i+2])`, where `i` is the vertex index of
that corner. -/
theorem dedup_round_trip {K : Type} [DecidableEq K] (attrib : attrib_t K)
    (shapes : List shape_t) (h : InRange attrib shapes) :
    ∃ st, dedup attrib shapes = Except.ok st ∧
      ∀ (k : Nat) (index : index_t), (corners shapes)[k]? = some index →
        ∃ (i n : Nat) (vx vy vz : K), index.vertex_index = (i : Int) ∧
          st.m_indices[k]? = some n ∧
          st.m_vertices[n]? = some { position := { x := vx, y := vy, z := vz } } ∧
          attrib.vertices[3 * i]? = some vx ∧
          attrib.vertices[3 * i + 1]? = some vy ∧
          attrib.vertices[3 * i + 2]? = some vz := by
  obtain ⟨st, hrun, hinv⟩ := dedup_inv attrib shapes h
  refine ⟨st, hrun, ?_⟩
  intro k index hk
  have hmem : index ∈ corners shapes := List.getElem?_mem hk
  obtain ⟨i, vx, vy, vz, hi, h0, h1, h2, hpos, -⟩ :=
    cornerPosition_of_inRange attrib index (inRange_corners attrib shapes h index hmem)
  have hmap := cornerPositions_map_some attrib (corners shapes)
    (inRange_corners attrib shapes h)
  have hk2 : ((corners shapes).map (cornerPosition attrib))[k]?
      = some (some ⟨⟨vx, vy, vz⟩⟩) := by
    rw [List.getElem?_map, hk]; simp [hpos]
  rw [hmap, ← hinv.indices_eq, List.getElem?_map] at hk2
  cases hn : st.m_indices[k]? with
  | none => rw [hn] at hk2; cases hk2
  | some n =>
    rw [hn] at hk2
    have hk3 : some (st.m_vertices[n]?) = some (some ⟨⟨vx, vy, vz⟩⟩) := hk2
    have hk2 := Option.some.inj hk3
    exact ⟨i, n, vx, vy, vz, hi, rfl, hk2, h0, h1, h2⟩

/-- Witness of C1: the theorem applied to the two-shape mesh. -/
theorem dedup_round_trip_witness :
    InRange twoShapeAttrib twoShapes ∧
    ∃ st, dedup twoShapeAttrib twoShapes = Except.ok st ∧
      ∀ (k : Nat) (index : index_t), (corners twoShapes)[k]? = some index →
        ∃ (i n : Nat) (vx vy vz : ℚ), index.vertex_index = (i : Int) ∧
          st.m_indices[k]? = some n ∧
          st.m_vertices[n]? = some { position := { x := vx, y := vy, z := vz } } ∧
          twoShapeAttrib.vertices[3 * i]? = some vx ∧
          twoShapeAttrib.vertices[3 * i + 1]? = some vy ∧
          twoShapeAttrib.vertices[3 * i + 2]? = some vz :=
  ⟨by decide, dedup_round_trip twoShapeAttrib twoShapes (by decide)⟩

/-- C2: when every corner is in range, the vertex sequence built by the loop has no
two equal positions, contains the position of every corner of every shape (and
nothing else), and its length is the number of distinct corner positions over all
shapes together; there is one index per corner. -/
theorem dedup_vertices_distinct {K : Type} [DecidableEq K] (attrib : attrib_t K)
    (shapes : List shape_t) (h : InRange attrib shapes) :
    ∃ st, dedup attrib shapes = Except.ok st ∧
      st.m_vertices.Nodup ∧
      (∀ index ∈ corners shapes,
        ∃ v, cornerPosition attrib index = some v ∧ v ∈ st.m_vertices) ∧
      (∀ v ∈ st.m_vertices,
        ∃ index ∈ corners shapes, cornerPosition attrib index = some v) ∧
      st.m_vertices.length = (cornerPositions attrib (corners shapes)).toFinset.card ∧
      st.m_indices.length = (corners shapes).length := by
  obtain ⟨st, hrun, hinv⟩ := dedup_inv attrib shapes h
  have hin := inRange_corners attrib shapes h
  refine ⟨st, hrun, hinv.nodup, ?_, ?_, hinv.vertices_length, ?_⟩
  · intro index hmem
    obtain ⟨i, vx, vy, vz, -, -, -, -, hpos, -⟩ :=
      cornerPosition_of_inRange attrib index (hin index hmem)
    refine ⟨_, hpos, (hinv.mem_iff _).mpr ?_⟩
    exact List.mem_filterMap.mpr ⟨index, hmem, hpos⟩
  · intro v hv
    exact List.mem_filterMap.mp ((hinv.mem_iff v).mp hv)
  · rw [hinv.indices_length, cornerPositions_length attrib _ hin]

/-- Witness of C2: the cube, 36 corners over 8 distinct positions. -/
theorem dedup_vertices_distinct_witness :
    InRange cubeAttrib cubeShapes ∧
    ∃ st, dedup cubeAttrib cubeShapes = Except.ok st ∧
      st.m_vertices.Nodup ∧
      (∀ index ∈ corners cubeShapes,
        ∃ v, cornerPosition cubeAttrib index = some v ∧ v ∈ st.m_vertices) ∧
      (∀ v ∈ st.m_vertices,
        ∃ index ∈ corners cubeShapes, cornerPosition cubeAttrib index = some v) ∧
      st.m_vertices.length =
        (cornerPositions cubeAttrib (corners cubeShapes)).toFinset.card ∧
      st.m_indices.length = (corners cubeShapes).length :=
  ⟨by decide, dedup_vertices_distinct cubeAttrib cubeShapes (by decide)⟩

/-- C3: the MeshBuffer invariant.  When every corner is in range the loop returns
normally with one index per corner (the corner counts summed over the shapes), and
after every number `k` of iterations the state satisfies: every index is below
`m_vertices.size()`, there are `k` indices, and `m_vertices.size()` is at most
`m_indices.size()`; running the remaining iterations from that state gives the final
state. -/
theorem dedup_mesh_invariant {K : Type} [DecidableEq K] (attrib : attrib_t K)
    (shapes : List shape_t) (h : InRange attrib shapes) :
    ∃ st, dedup attrib shapes = Except.ok st ∧
      st.m_indices.length = (shapes.map (fun shape => shape.mesh.indices.length)).sum ∧
      (∀ n ∈ st.m_indices, n < st.m_vertices.length) ∧
      st.m_vertices.length ≤ st.m_indices.length ∧
      ∀ k, k ≤ (corners shapes).length →
        ∃ stk, shapeLoop attrib ((corners shapes).take k) initialState = Except.ok stk ∧
          shapeLoop attrib ((corners shapes).drop k) stk = Except.ok st ∧
          (∀ n ∈ stk.m_indices, n < stk.m_vertices.length) ∧
          stk.m_indices.length = k ∧
          stk.m_vertices.length ≤ stk.m_indices.length := by
  obtain ⟨st, hrun, hinv⟩ := dedup_inv attrib shapes h
  have hin := inRange_corners attrib shapes h
  have hlen : st.m_indices.length = (corners shapes).length := by
    rw [hinv.indices_length, cornerPositions_length attrib _ hin]
  refine ⟨st, hrun, by rw [hlen, corners_length], hinv.index_lt, ?_, ?_⟩
  · rw [hinv.indices_length]; exact hinv.vertices_length_le
  · intro k hk
    have hink : ∀ index ∈ (corners shapes).take k, cornerInRange attrib index :=
      fun index hm => hin index (List.mem_of_mem_take hm)
    obtain ⟨stk, hloop, hinvk⟩ := shapeLoop_inv attrib ((corners shapes).take k)
      initialState [] DedupInv.initial hink
    have hlenk : stk.m_indices.length = k := by
      rw [hinvk.indices_length]
      simp only [List.nil_append]
      rw [cornerPositions_length attrib _ hink, List.length_take]
      omega
    refine ⟨stk, hloop, ?_, hinvk.index_lt, hlenk, ?_⟩
    · have hsplit := shapeLoop_append attrib ((corners shapes).take k)
        ((corners shapes).drop k) initialState
      rw [List.take_append_drop, hloop] at hsplit
      have hsplit2 : shapeLoop attrib (corners shapes) initialState
          = shapeLoop attrib ((corners shapes).drop k) stk := hsplit
      rw [← hsplit2, ← shapesLoop_eq_shapeLoop]
      exact hrun
    · rw [hinvk.indices_length]; exact hinvk.vertices_length_le

/-- Witness of C3: the theorem applied to the two-shape mesh. -/
theorem dedup_mesh_invariant_witness :
    InRange twoShapeAttrib twoShapes ∧
    ∃ st, dedup twoShapeAttrib twoShapes = Except.ok st ∧
      st.m_indices.length =
        (twoShapes.map (fun shape => shape.mesh.indices.length)).sum ∧
      (∀ n ∈ st.m_indices, n < st.m_vertices.length) ∧
      st.m_vertices.length ≤ st.m_indices.length ∧
      ∀ k, k ≤ (corners twoShapes).length →
        ∃ stk, shapeLoop twoShapeAttrib ((corners twoShapes).take k) initialState
            = Except.ok stk ∧
          shapeLoop twoShapeAttrib ((corners twoShapes).drop k) stk = Except.ok st ∧
          (∀ n ∈ stk.m_indices, n < stk.m_vertices.length) ∧
          stk.m_indices.length = k ∧
          stk.m_vertices.length ≤ stk.m_indices.length :=
  ⟨by decide, dedup_mesh_invariant twoShapeAttrib twoShapes (by decide)⟩

/-! ## Proofs: the selection state -/

/-- C7: `onxMove` and `onzMove` accept or reject, with inclusive bounds and no
clamping.  If `-0.8 <= x + move <= 0.6` the new position is `(x + move, y, z)` and
nothing else changes, in particular when `x + move` is exactly `0.6` or exactly
`-0.8`; otherwise the state, and so the position, is exactly as it was.  `onzMove`
does the same on the `z` coordinate. -/
theorem onMove_accept_or_reject {K : Type} [LinearOrderedField K] (s : SelectState K)
    (move : K) :
    ((-0.8 ≤ s.m_select.m_position.x + move ∧ s.m_select.m_position.x + move ≤ 0.6 →
        onxMove move s = { s with m_select := { s.m_select with m_position :=
          { x := s.m_select.m_position.x + move
            y := s.m_select.m_position.y
            z := s.m_select.m_position.z } } }) ∧
      (s.m_select.m_position.x + move = 0.6 ∨ s.m_select.m_position.x + move = -0.8 →
        (onxMove move s).m_select.m_position =
          { x := s.m_select.m_position.x + move
            y := s.m_select.m_position.y
            z := s.m_select.m_position.z }) ∧
      (¬ (-0.8 ≤ s.m_select.m_position.x + move ∧ s.m_select.m_position.x + move ≤ 0.6) →
        onxMove move s = s)) ∧
    ((-0.8 ≤ s.m_select.m_position.z + move ∧ s.m_select.m_position.z + move ≤ 0.6 →
        onzMove move s = { s with m_select := { s.m_select with m_position :=
          { x := s.m_select.m_position.x
            y := s.m_select.m_position.y
            z := s.m_select.m_position.z + move } } }) ∧
      (s.m_select.m_position.z + move = 0.6 ∨ s.m_select.m_position.z + move = -0.8 →
        (onzMove move s).m_select.m_position =
          { x := s.m_select.m_position.x
            y := s.m_select.m_position.y
            z := s.m_select.m_position.z + move }) ∧
      (¬ (-0.8 ≤ s.m_select.m_position.z + move ∧ s.m_select.m_position.z + move ≤ 0.6) →
        onzMove move s = s)) := by
  refine ⟨⟨?_, ?_, ?_⟩, ?_, ?_, ?_⟩
  · intro h; simp only [onxMove, ge_iff_le]; rw [if_pos h]
  · intro h
    have hc : -0.8 ≤ s.m_select.m_position.x + move ∧
        s.m_select.m_position.x + move ≤ 0.6 := by
      rcases h with h | h <;> rw [h] <;> exact ⟨by norm_num, by norm_num⟩
    simp only [onxMove, ge_iff_le]; rw [if_pos hc]
  · intro h; simp only [onxMove, ge_iff_le]; rw [if_neg h]
  · intro h; simp only [onzMove, ge_iff_le]; rw [if_pos h]
  · intro h
    have hc : -0.8 ≤ s.m_select.m_position.z + move ∧
        s.m_select.m_position.z + move ≤ 0.6 := by
      rcases h with h | h <;> rw [h] <;> exact ⟨by norm_num, by norm_num⟩
    simp only [onzMove, ge_iff_le]; rw [if_pos hc]
  · intro h; simp only [onzMove, ge_iff_le]; rw [if_neg h]

/-- C8: selection transitions.  From every state, `onSelect(true)` leaves the status
`select` and the colour `yellow`; `onSelect(false)` leaves the status `moving` and
the colour as it was; neither call changes the position (nor the other members). -/
theorem onSelect_transitions {K : Type} [LinearOrderedField K] (c : Constants K)
    (s : SelectState K) :
    ((onSelect c true s).m_select.m_status = StatusSelect.select ∧
      (onSelect c true s).m_select.m_color = c.yellow ∧
      (onSelect c true s).m_select.m_position = s.m_select.m_position ∧
      (onSelect c true s).m_positionCurrent = s.m_positionCurrent ∧
      (onSelect c true s).m_timer = s.m_timer) ∧
    ((onSelect c false s).m_select.m_status = StatusSelect.moving ∧
      (onSelect c false s).m_select.m_color = s.m_select.m_color ∧
      (onSelect c false s).m_select.m_position = s.m_select.m_position ∧
      (onSelect c false s).m_positionCurrent = s.m_positionCurrent ∧
      (onSelect c false s).m_timer = s.m_timer) := by
  simp [onSelect]

theorem Frozen.run {K : Type} [LinearOrderedField K] (c : Constants K) (call : Call K)
    (s : SelectState K) (hs : Frozen c s) (hc : call ≠ Call.onSelect false) :
    Frozen c (call.run c s) := by
  obtain ⟨hcol, hst⟩ := hs
  cases call with
  | onUpdate elapsed =>
    simp only [Call.run, onUpdate, Frozen]
    split_ifs <;> simp_all
  | onSelect sel =>
    cases sel with
    | true => simp [Call.run, onSelect, Frozen]
    | false => exact absurd rfl hc
  | onxMove move =>
    simp only [Call.run, onxMove, Frozen]
    split_ifs <;> simp_all
  | onzMove move =>
    simp only [Call.run, onzMove, Frozen]
    split_ifs <;> simp_all

theorem Frozen.runCalls {K : Type} [LinearOrderedField K] (c : Constants K) :
    ∀ (calls : List (Call K)) (s : SelectState K), Frozen c s →
      (∀ call ∈ calls, call ≠ Call.onSelect false) → Frozen c (runCalls c calls s)
  | [], _, hs, _ => hs
  | call :: rest, s, hs, h => by
    have h1 := Frozen.run c call s hs (h call (List.mem_cons_self _ _))
    exact Frozen.runCalls c rest (call.run c s) h1
      (fun x hx => h x (List.mem_cons_of_mem _ hx))

/-- C9: once `onSelect(true)` has been called, after every step of every finite
sequence of calls that contains no `onSelect(false)` (calls of `onUpdate` with any
elapsed time, of `onxMove`, of `onzMove`, and further calls of `onSelect(true)`) the
colour is `yellow` and the status is `select`. -/
theorem select_freezes_colour {K : Type} [LinearOrderedField K] (c : Constants K)
    (s : SelectState K) (calls : List (Call K))
    (h : ∀ call ∈ calls, call ≠ Call.onSelect false) (k : Nat) :
    (runCalls c (calls.take k) (onSelect c true s)).m_select.m_color = c.yellow ∧
    (runCalls c (calls.take k) (onSelect c true s)).m_select.m_status
      = StatusSelect.select := by
  have h0 : Frozen c (onSelect c true s) := by simp [Frozen, onSelect]
  exact Frozen.runCalls c (calls.take k) _ h0
    (fun call hc => h call (List.mem_of_mem_take hc))

/-- Witness of C9: a sequence of five calls without `onSelect(false)`, after three
steps. -/
theorem select_freezes_colour_witness :
    (∀ call ∈ [Call.onUpdate (1 : ℚ), Call.onxMove 0.1, Call.onUpdate 0, Call.onzMove 5,
        Call.onSelect true], call ≠ Call.onSelect false) ∧
    ((runCalls exampleConstants
        ([Call.onUpdate (1 : ℚ), Call.onxMove 0.1, Call.onUpdate 0, Call.onzMove 5,
          Call.onSelect true].take 3)
        (onSelect exampleConstants true exampleState)).m_select.m_color
      = exampleConstants.yellow ∧
    (runCalls exampleConstants
        ([Call.onUpdate (1 : ℚ), Call.onxMove 0.1, Call.onUpdate 0, Call.onzMove 5,
          Call.onSelect true].take 3)
        (onSelect exampleConstants true exampleState)).m_select.m_status
      = StatusSelect.select) :=
  ⟨by decide, select_freezes_colour exampleConstants exampleState _ (by decide) 3⟩

theorem onUpdate_fires {K : Type} [LinearOrderedField K] (c : Constants K)
    (s : SelectState K) (e : K) (hs : s.m_select.m_status = StatusSelect.moving)
    (he : c.m_tempo ≤ e) :
    ((Call.onUpdate e).run c s).m_select.m_status = StatusSelect.moving ∧
    ((Call.onUpdate e).run c s).m_select.m_color =
      if s.m_select.m_color = c.gray then c.white else c.gray := by
  simp only [Call.run, onUpdate]
  rw [if_neg (not_lt.mpr he), if_pos hs]
  split_ifs <;> simp_all

theorem runCalls_append {K : Type} [LinearOrderedField K] (c : Constants K)
    (xs ys : List (Call K)) (s : SelectState K) :
    runCalls c (xs ++ ys) s = runCalls c ys (runCalls c xs s) := by
  simp [runCalls, List.foldl_append]

/-- C10: blink after deselection, for pairwise distinct gray, white and yellow.  From
every state, after `onSelect(true)`, `onSelect(false)` and then `n >= 1` calls of
`onUpdate` that each fire (elapsed time at least the interval), the status is `moving`
and the colour is gray when `n` is odd and white when `n` is even; it is not yellow. -/
theorem blink_after_deselect {K : Type} [LinearOrderedField K] (c : Constants K)
    (s : SelectState K) (es : List K) (hyg : c.yellow ≠ c.gray) (hyw : c.yellow ≠ c.white)
    (hgw : c.gray ≠ c.white) (hfire : ∀ e ∈ es, c.m_tempo ≤ e) (hne : es ≠ []) :
    (runCalls c (es.map Call.onUpdate)
        (onSelect c false (onSelect c true s))).m_select.m_status = StatusSelect.moving ∧
    (runCalls c (es.map Call.onUpdate)
        (onSelect c false (onSelect c true s))).m_select.m_color
      = (if es.length % 2 = 1 then c.gray else c.white) ∧
    (runCalls c (es.map Call.onUpdate)
        (onSelect c false (onSelect c true s))).m_select.m_color ≠ c.yellow := by
  have hwg : c.white ≠ c.gray := fun h => hgw h.symm
  have key : (runCalls c (es.map Call.onUpdate)
        (onSelect c false (onSelect c true s))).m_select.m_status = StatusSelect.moving ∧
      (runCalls c (es.map Call.onUpdate)
        (onSelect c false (onSelect c true s))).m_select.m_color
        = (if es.length % 2 = 1 then c.gray else c.white) := by
    induction es using List.reverseRecOn with
    | nil => exact absurd rfl hne
    | append_singleton es e ih =>
      have he : c.m_tempo ≤ e := hfire e (by simp)
      rw [List.map_append, runCalls_append]
      simp only [List.map_cons, List.map_nil, runCalls, List.foldl_cons, List.foldl_nil]
      by_cases hes : es = []
      · subst hes
        have h0 : (onSelect c false (onSelect c true s)).m_select.m_status
            = StatusSelect.moving := by simp [onSelect]
        have h1 : (onSelect c false (onSelect c true s)).m_select.m_color = c.yellow := by
          simp [onSelect]
        obtain ⟨a, b⟩ := onUpdate_fires c _ e h0 he
        simp only [List.map_nil, List.foldl_nil]
        refine ⟨a, ?_⟩
        rw [b, h1, if_neg hyg]; simp
      · obtain ⟨ih1, ih2⟩ := ih (fun x hx => hfire x (by simp [hx])) hes
        simp only [runCalls] at ih1 ih2
        obtain ⟨a, b⟩ := onUpdate_fires c _ e ih1 he
        refine ⟨a, ?_⟩
        rw [b, ih2]
        simp only [List.length_append, List.length_singleton]
        rcases Nat.mod_two_eq_zero_or_one es.length with hp | hp
        · have hq : (es.length + 1) % 2 = 1 := by omega
          rw [hq]; simp [hp, hwg]
        · have hq : (es.length + 1) % 2 = 0 := by omega
          rw [hq]; simp [hp]
  refine ⟨key.1, key.2, ?_⟩
  rw [key.2]
  split_ifs
  · exact fun h => hyg h.symm
  · exact fun h => hyw h.symm

/-- Witness of C10: three firing updates after select and deselect. -/
theorem blink_after_deselect_witness :
    (exampleConstants.yellow ≠ exampleConstants.gray ∧
      exampleConstants.yellow ≠ exampleConstants.white ∧
      exampleConstants.gray ≠ exampleConstants.white ∧
      (∀ e ∈ [(1 : ℚ), 0.5, 7], exampleConstants.m_tempo ≤ e) ∧
      [(1 : ℚ), 0.5, 7] ≠ []) ∧
    ((runCalls exampleConstants ([(1 : ℚ), 0.5, 7].map Call.onUpdate)
        (onSelect exampleConstants false
          (onSelect exampleConstants true exampleState))).m_select.m_status
        = StatusSelect.moving ∧
    (runCalls exampleConstants ([(1 : ℚ), 0.5, 7].map Call.onUpdate)
        (onSelect exampleConstants false
          (onSelect exampleConstants true exampleState))).m_select.m_color
        = (if [(1 : ℚ), 0.5, 7].length % 2 = 1 then exampleConstants.gray
            else exampleConstants.white) ∧
    (runCalls exampleConstants ([(1 : ℚ), 0.5, 7].map Call.onUpdate)
        (onSelect exampleConstants false
          (onSelect exampleConstants true exampleState))).m_select.m_color
        ≠ exampleConstants.yellow) :=
  ⟨⟨by norm_num [exampleConstants], by norm_num [exampleConstants],
      by norm_num [exampleConstants], by norm_num [exampleConstants],
      List.cons_ne_nil _ _⟩,
    blink_after_deselect exampleConstants exampleState [1, 0.5, 7]
      (by norm_num [exampleConstants]) (by norm_num [exampleConstants])
      (by norm_num [exampleConstants]) (by norm_num [exampleConstants]) (List.cons_ne_nil _ _)⟩

/-! ## Proofs: `standardize` -/

theorem vec3.ext_get {K : Type} {p q : vec3 K} (h : ∀ a, p.get a = q.get a) : p = q := by
  cases p; cases q
  have hx := h Axis.x; have hy := h Axis.y; have hz := h Axis.z
  simp only [vec3.get] at hx hy hz
  simp [hx, hy, hz]

theorem foldl_max_le_iff {K : Type} [LinearOrder K] (xs : List K) (init M : K) :
    xs.foldl Max.max init ≤ M ↔ init ≤ M ∧ ∀ t ∈ xs, t ≤ M := by
  induction xs generalizing init with
  | nil => simp
  | cons t rest ih =>
    simp only [List.foldl_cons, ih, max_le_iff, List.mem_cons, forall_eq_or_imp]
    tauto

theorem le_foldl_min_iff {K : Type} [LinearOrder K] (xs : List K) (init m : K) :
    m ≤ xs.foldl Min.min init ↔ m ≤ init ∧ ∀ t ∈ xs, m ≤ t := by
  induction xs generalizing init with
  | nil => simp
  | cons t rest ih =>
    simp only [List.foldl_cons, ih, le_min_iff, List.mem_cons, forall_eq_or_imp]
    tauto

theorem foldl_max_mem_or {K : Type} [LinearOrder K] (xs : List K) (init : K) :
    xs.foldl Max.max init = init ∨ xs.foldl Max.max init ∈ xs := by
  induction xs generalizing init with
  | nil => simp
  | cons t rest ih =>
    simp only [List.foldl_cons, List.mem_cons]
    rcases ih (Max.max init t) with h | h
    · rw [h]
      rcases max_choice init t with h2 | h2
      · exact Or.inl h2
      · exact Or.inr (Or.inl h2)
    · exact Or.inr (Or.inr h)

theorem foldl_min_mem_or {K : Type} [LinearOrder K] (xs : List K) (init : K) :
    xs.foldl Min.min init = init ∨ xs.foldl Min.min init ∈ xs := by
  induction xs generalizing init with
  | nil => simp
  | cons t rest ih =>
    simp only [List.foldl_cons, List.mem_cons]
    rcases ih (Min.min init t) with h | h
    · rw [h]
      rcases min_choice init t with h2 | h2
      · exact Or.inl h2
      · exact Or.inr (Or.inl h2)
    · exact Or.inr (Or.inr h)

/-- The fold of `max` is the greatest element when the list has one above `init`. -/
theorem foldl_max_eq {K : Type} [LinearOrder K] (xs : List K) (init M : K)
    (hinit : init ≤ M) (hub : ∀ t ∈ xs, t ≤ M) (hmem : M ∈ xs) :
    xs.foldl Max.max init = M := by
  apply le_antisymm
  · exact (foldl_max_le_iff xs init M).mpr ⟨hinit, hub⟩
  · exact ((foldl_max_le_iff xs init _).mp le_rfl).2 M hmem

theorem foldl_min_eq {K : Type} [LinearOrder K] (xs : List K) (init m : K)
    (hinit : m ≤ init) (hlb : ∀ t ∈ xs, m ≤ t) (hmem : m ∈ xs) :
    xs.foldl Min.min init = m := by
  apply le_antisymm
  · exact ((le_foldl_min_iff xs init _).mp le_rfl).2 m hmem
  · exact (le_foldl_min_iff xs init m).mpr ⟨hinit, hlb⟩

theorem foldl_max_mem {K : Type} [LinearOrder K] (xs : List K) (init : K)
    (hne : xs ≠ []) (h : ∀ t ∈ xs, init ≤ t) : xs.foldl Max.max init ∈ xs := by
  rcases foldl_max_mem_or xs init with h1 | h1
  · obtain ⟨t, rest, rfl⟩ := List.exists_cons_of_ne_nil hne
    have h2 : t ≤ init := by
      rw [← h1]
      exact ((foldl_max_le_iff (t :: rest) init _).mp le_rfl).2 t (List.mem_cons_self _ _)
    have h3 : t = init := le_antisymm h2 (h t (List.mem_cons_self _ _))
    rw [h1, ← h3]; exact List.mem_cons_self _ _
  · exact h1

theorem foldl_min_mem {K : Type} [LinearOrder K] (xs : List K) (init : K)
    (hne : xs ≠ []) (h : ∀ t ∈ xs, t ≤ init) : xs.foldl Min.min init ∈ xs := by
  rcases foldl_min_mem_or xs init with h1 | h1
  · obtain ⟨t, rest, rfl⟩ := List.exists_cons_of_ne_nil hne
    have h2 : init ≤ t := by
      rw [← h1]
      exact ((le_foldl_min_iff (t :: rest) init _).mp le_rfl).2 t (List.mem_cons_self _ _)
    have h3 : t = init := le_antisymm (h t (List.mem_cons_self _ _)) h2
    rw [h1, ← h3]; exact List.mem_cons_self _ _
  · exact h1

/-- The coordinates of the vertices along an axis. -/
theorem getBounds_get {K : Type} [LinearOrderedField K] (vs : List (Vertex K)) (a : Axis) :
    (getBounds vs).max.get a
        = (vs.map (fun v => v.position.get a)).foldl Max.max FLT_LOWEST ∧
    (getBounds vs).min.get a
        = (vs.map (fun v => v.position.get a)).foldl Min.min FLT_MAX := by
  have gen : ∀ (ws : List (Vertex K)) (b : Bounds K),
      (ws.foldl (fun b vertex =>
          ({ max := vec3.max b.max vertex.position
             min := vec3.min b.min vertex.position } : Bounds K)) b).max.get a
        = (ws.map (fun v => v.position.get a)).foldl Max.max (b.max.get a) ∧
      (ws.foldl (fun b vertex =>
          ({ max := vec3.max b.max vertex.position
             min := vec3.min b.min vertex.position } : Bounds K)) b).min.get a
        = (ws.map (fun v => v.position.get a)).foldl Min.min (b.min.get a) := by
    intro ws
    induction ws with
    | nil => intro b; simp
    | cons w rest ih =>
      intro b
      simp only [List.foldl_cons, List.map_cons]
      have := ih { max := vec3.max b.max w.position, min := vec3.min b.min w.position }
      cases a <;> simpa [vec3.max, vec3.min, vec3.get] using this
  have := gen vs { max := vec3.splat FLT_LOWEST, min := vec3.splat FLT_MAX }
  cases a <;> simpa [getBounds, vec3.splat, vec3.get] using this

theorem FLT_LOWEST_neg {K : Type} [LinearOrderedField K] : (FLT_LOWEST : K) < 0 := by
  simp only [FLT_LOWEST, FLT_MAX]; norm_num

theorem FLT_MAX_pos {K : Type} [LinearOrderedField K] : (0 : K) < FLT_MAX := by
  simp only [FLT_MAX]; norm_num

theorem vec3.inFloatRange_get {K : Type} [LinearOrderedField K] {p : vec3 K}
    (h : p.InFloatRange) (a : Axis) : FLT_LOWEST ≤ p.get a ∧ p.get a ≤ FLT_MAX := by
  obtain ⟨hx, hy, hz⟩ := h
  cases a
  · exact hx
  · exact hy
  · exact hz

/-- Every vertex lies between the computed `min` and `max`, on every axis. -/
theorem getBounds_le {K : Type} [LinearOrderedField K] (vs : List (Vertex K)) (a : Axis)
    (v : Vertex K) (hv : v ∈ vs) :
    (getBounds vs).min.get a ≤ v.position.get a ∧
      v.position.get a ≤ (getBounds vs).max.get a := by
  obtain ⟨hmax, hmin⟩ := getBounds_get vs a
  rw [hmax, hmin]
  have hm : v.position.get a ∈ vs.map (fun v => v.position.get a) :=
    List.mem_map_of_mem _ hv
  exact ⟨((le_foldl_min_iff _ _ _).mp le_rfl).2 _ hm,
    ((foldl_max_le_iff _ _ _).mp le_rfl).2 _ hm⟩

/-- On a non-empty mesh with coordinates in the range of `float`, the computed `max`
and `min` are attained by vertices. -/
theorem getBounds_attained {K : Type} [LinearOrderedField K] (vs : List (Vertex K))
    (hne : vs ≠ []) (hr : InFloatRange vs) (a : Axis) :
    (∃ v ∈ vs, v.position.get a = (getBounds vs).max.get a) ∧
    (∃ v ∈ vs, v.position.get a = (getBounds vs).min.get a) := by
  obtain ⟨hmax, hmin⟩ := getBounds_get vs a
  have hne2 : vs.map (fun v => v.position.get a) ≠ [] := by simpa using hne
  have h1 := foldl_max_mem (vs.map (fun v => v.position.get a)) FLT_LOWEST hne2 (by
    intro t ht
    obtain ⟨v, hv, rfl⟩ := List.mem_map.mp ht
    exact (vec3.inFloatRange_get (hr v hv) a).1)
  have h2 := foldl_min_mem (vs.map (fun v => v.position.get a)) FLT_MAX hne2 (by
    intro t ht
    obtain ⟨v, hv, rfl⟩ := List.mem_map.mp ht
    exact (vec3.inFloatRange_get (hr v hv) a).2)
  rw [← hmax] at h1; rw [← hmin] at h2
  obtain ⟨v, hv, e1⟩ := List.mem_map.mp h1
  obtain ⟨w, hw, e2⟩ := List.mem_map.mp h2
  exact ⟨⟨v, hv, e1⟩, ⟨w, hw, e2⟩⟩

theorem getBounds_min_le_max {K : Type} [LinearOrderedField K] (vs : List (Vertex K))
    (hne : vs ≠ []) (a : Axis) :
    (getBounds vs).min.get a ≤ (getBounds vs).max.get a := by
  obtain ⟨v, rest, rfl⟩ := List.exists_cons_of_ne_nil hne
  have := getBounds_le (v :: rest) a v (List.mem_cons_self _ _)
  exact this.1.trans this.2

/-- The bounds are determined by a greatest and a least vertex coordinate. -/
theorem getBounds_eq_of {K : Type} [LinearOrderedField K] (vs : List (Vertex K)) (a : Axis)
    (M m : K) (hM : FLT_LOWEST ≤ M) (hm : m ≤ FLT_MAX)
    (hb : ∀ v ∈ vs, m ≤ v.position.get a ∧ v.position.get a ≤ M)
    (hMa : ∃ v ∈ vs, v.position.get a = M) (hma : ∃ v ∈ vs, v.position.get a = m) :
    (getBounds vs).max.get a = M ∧ (getBounds vs).min.get a = m := by
  obtain ⟨hmax, hmin⟩ := getBounds_get vs a
  rw [hmax, hmin]
  obtain ⟨v, hv, e1⟩ := hMa
  obtain ⟨w, hw, e2⟩ := hma
  constructor
  · apply foldl_max_eq _ _ _ hM
    · intro t ht
      obtain ⟨u, hu, rfl⟩ := List.mem_map.mp ht
      exact (hb u hu).2
    · rw [← e1]; exact List.mem_map_of_mem (fun v => v.position.get a) hv
  · apply foldl_min_eq _ _ _ hm
    · intro t ht
      obtain ⟨u, hu, rfl⟩ := List.mem_map.mp ht
      exact (hb u hu).1
    · rw [← e2]; exact List.mem_map_of_mem (fun v => v.position.get a) hw

/-- The map applied by the second loop of `standardize` (line 212). -/
theorem rescale_get {K : Type} [LinearOrderedField K] (p c : vec3 K) (s : K) (a : Axis) :
    ((p.sub c).scale s).get a = (p.get a - c.get a) * s := by
  cases a <;> rfl

theorem centerOf_get {K : Type} [LinearOrderedField K] (b : Bounds K) (a : Axis) :
    (centerOf b).get a = (b.min.get a + b.max.get a) / 2 := by
  cases a <;> rfl

/-- The bounds of the rescaled mesh are the rescaled bounds, for a positive scaling. -/
theorem getBounds_rescaled {K : Type} [LinearOrderedField K] (vs : List (Vertex K))
    (hne : vs ≠ []) (hr : InFloatRange vs) (s : K) (hs : 0 ≤ s) (a : Axis) :
    (getBounds (rescaled vs (centerOf (getBounds vs)) s)).max.get a
      = ((getBounds vs).max.get a - (getBounds vs).min.get a) / 2 * s ∧
    (getBounds (rescaled vs (centerOf (getBounds vs)) s)).min.get a
      = -(((getBounds vs).max.get a - (getBounds vs).min.get a) / 2 * s) := by
  have hle := getBounds_min_le_max vs hne a
  obtain ⟨⟨v, hv, e1⟩, ⟨w, hw, e2⟩⟩ := getBounds_attained vs hne hr a
  have hd : 0 ≤ ((getBounds vs).max.get a - (getBounds vs).min.get a) / 2 * s :=
    mul_nonneg (by linarith) hs
  have hc := centerOf_get (getBounds vs) a
  unfold rescaled
  apply getBounds_eq_of
  · exact le_trans (le_of_lt FLT_LOWEST_neg) hd
  · have := le_of_lt (FLT_MAX_pos (K := K)); linarith
  · intro u hu
    obtain ⟨u0, hu0, rfl⟩ := List.mem_map.mp hu
    obtain ⟨h1, h2⟩ := getBounds_le vs a u0 hu0
    simp only [rescale_get, hc]
    constructor
    · rw [← neg_mul]; apply mul_le_mul_of_nonneg_right _ hs; linarith
    · apply mul_le_mul_of_nonneg_right _ hs; linarith
  · refine ⟨_, List.mem_map_of_mem _ hv, ?_⟩
    simp only [rescale_get, hc, e1]; ring
  · refine ⟨_, List.mem_map_of_mem _ hw, ?_⟩
    simp only [rescale_get, hc, e2]; ring

/-- The rescaled bounds are attained by rescaled vertices. -/
theorem getBounds_rescaled_attained {K : Type} [LinearOrderedField K]
    (vs : List (Vertex K)) (hne : vs ≠ []) (hr : InFloatRange vs) (s : K) (hs : 0 ≤ s)
    (a : Axis) :
    (∃ v ∈ rescaled vs (centerOf (getBounds vs)) s,
      v.position.get a = (getBounds (rescaled vs (centerOf (getBounds vs)) s)).max.get a) ∧
    (∃ v ∈ rescaled vs (centerOf (getBounds vs)) s,
      v.position.get a = (getBounds (rescaled vs (centerOf (getBounds vs)) s)).min.get a) := by
  obtain ⟨h1, h2⟩ := getBounds_rescaled vs hne hr s hs a
  obtain ⟨⟨v, hv, e1⟩, ⟨w, hw, e2⟩⟩ := getBounds_attained vs hne hr a
  have hc := centerOf_get (getBounds vs) a
  rw [h1, h2]
  constructor
  · refine ⟨_, List.mem_map_of_mem _ hv, ?_⟩
    simp only [rescale_get, hc, e1]; ring
  · refine ⟨_, List.mem_map_of_mem _ hw, ?_⟩
    simp only [rescale_get, hc, e2]; ring

/-- The sum of squares under the square root in `glm::length(max - min)`. -/
theorem diag_sq_pos (vs : List (Vertex ℝ)) (hnd : NonDegenerate vs) :
    0 < ((getBounds vs).max.sub (getBounds vs).min).x
          * ((getBounds vs).max.sub (getBounds vs).min).x
        + ((getBounds vs).max.sub (getBounds vs).min).y
          * ((getBounds vs).max.sub (getBounds vs).min).y
        + ((getBounds vs).max.sub (getBounds vs).min).z
          * ((getBounds vs).max.sub (getBounds vs).min).z := by
  by_contra hcon
  apply hnd
  have hx := mul_self_nonneg ((getBounds vs).max.sub (getBounds vs).min).x
  have hy := mul_self_nonneg ((getBounds vs).max.sub (getBounds vs).min).y
  have hz := mul_self_nonneg ((getBounds vs).max.sub (getBounds vs).min).z
  have ex : ((getBounds vs).max.sub (getBounds vs).min).x = 0 :=
    mul_self_eq_zero.mp (by linarith)
  have ey : ((getBounds vs).max.sub (getBounds vs).min).y = 0 :=
    mul_self_eq_zero.mp (by linarith)
  have ez : ((getBounds vs).max.sub (getBounds vs).min).z = 0 :=
    mul_self_eq_zero.mp (by linarith)
  simp only [vec3.sub] at ex ey ez
  apply vec3.ext_get
  intro a
  cases a <;> simp only [vec3.get] <;> linarith

theorem diag_length_pos (vs : List (Vertex ℝ)) (hnd : NonDegenerate vs) :
    0 < length Real.sqrt ((getBounds vs).max.sub (getBounds vs).min) :=
  Real.sqrt_pos.mpr (diag_sq_pos vs hnd)

/-- With a non-degenerate bounding box `standardize` returns the rescaled list. -/
theorem standardize_of_nonDegenerate (vs : List (Vertex ℝ)) (hnd : NonDegenerate vs) :
    standardize Real.sqrt vs = Outcome.returned
      (rescaled vs (centerOf (getBounds vs))
        (0.5 / length Real.sqrt ((getBounds vs).max.sub (getBounds vs).min))) := by
  have hL := ne_of_gt (diag_length_pos vs hnd)
  simp only [standardize, scalingOf, floatDiv, if_neg hL, rescaled]

/-- The bounding box of the list written by `standardize`: its midpoint is the origin
and its diagonal has length one half. -/
theorem rescaled_bounds (vs : List (Vertex ℝ)) (hne : vs ≠ []) (hr : InFloatRange vs)
    (hnd : NonDegenerate vs) :
    centerOf (getBounds (rescaled vs (centerOf (getBounds vs))
        (0.5 / length Real.sqrt ((getBounds vs).max.sub (getBounds vs).min))))
      = { x := 0, y := 0, z := 0 } ∧
    length Real.sqrt
      (((getBounds (rescaled vs (centerOf (getBounds vs))
          (0.5 / length Real.sqrt ((getBounds vs).max.sub (getBounds vs).min)))).max).sub
        ((getBounds (rescaled vs (centerOf (getBounds vs))
          (0.5 / length Real.sqrt ((getBounds vs).max.sub (getBounds vs).min)))).min))
      = 0.5 := by
  have hS := diag_sq_pos vs hnd
  have hL := diag_length_pos vs hnd
  have hLL : length Real.sqrt ((getBounds vs).max.sub (getBounds vs).min)
        * length Real.sqrt ((getBounds vs).max.sub (getBounds vs).min)
      = ((getBounds vs).max.sub (getBounds vs).min).x
          * ((getBounds vs).max.sub (getBounds vs).min).x
        + ((getBounds vs).max.sub (getBounds vs).min).y
          * ((getBounds vs).max.sub (getBounds vs).min).y
        + ((getBounds vs).max.sub (getBounds vs).min).z
          * ((getBounds vs).max.sub (getBounds vs).min).z :=
    Real.mul_self_sqrt (le_of_lt hS)
  generalize length Real.sqrt ((getBounds vs).max.sub (getBounds vs).min) = L at hL hLL ⊢
  have hs : (0 : ℝ) ≤ 0.5 / L := by positivity
  have hx := getBounds_rescaled vs hne hr (0.5 / L) hs Axis.x
  have hy := getBounds_rescaled vs hne hr (0.5 / L) hs Axis.y
  have hz := getBounds_rescaled vs hne hr (0.5 / L) hs Axis.z
  simp only [vec3.get] at hx hy hz
  have hLne : L ≠ 0 := ne_of_gt hL
  simp only [vec3.sub] at hLL
  have hsL : 0.5 / L * L = 0.5 := div_mul_cancel₀ _ hLne
  generalize (0.5 : ℝ) / L = s at hx hy hz hsL ⊢
  generalize rescaled vs (centerOf (getBounds vs)) s = out at hx hy hz ⊢
  constructor
  · apply vec3.ext_get
    intro a
    rw [centerOf_get]
    cases a <;> simp only [vec3.get]
    · rw [hx.1, hx.2]; ring
    · rw [hy.1, hy.2]; ring
    · rw [hz.1, hz.2]; ring
  · simp only [length, vec3.sub]
    rw [hx.1, hx.2, hy.1, hy.2, hz.1, hz.2]
    have : (0.5 : ℝ) = Real.sqrt (0.5 * 0.5) := by
      rw [Real.sqrt_mul_self (by norm_num)]
    rw [this]
    congr 1
    generalize (getBounds vs).max.x - (getBounds vs).min.x = dx at hLL ⊢
    generalize (getBounds vs).max.y - (getBounds vs).min.y = dy at hLL ⊢
    generalize (getBounds vs).max.z - (getBounds vs).min.z = dz at hLL ⊢
    calc (dx / 2 * s - -(dx / 2 * s)) * (dx / 2 * s - -(dx / 2 * s))
          + (dy / 2 * s - -(dy / 2 * s)) * (dy / 2 * s - -(dy / 2 * s))
          + (dz / 2 * s - -(dz / 2 * s)) * (dz / 2 * s - -(dz / 2 * s))
        = s * s * (dx * dx + dy * dy + dz * dz) := by ring
      _ = s * s * (L * L) := by rw [hLL]
      _ = (s * L) * (s * L) := by ring
      _ = 0.5 * 0.5 := by rw [hsL]

/-- Running `standardize` on the list it wrote: `center` is the origin and `scaling`
is one, so the list is returned as it is. -/
theorem standardize_rescaled (vs : List (Vertex ℝ)) (hne : vs ≠ []) (hr : InFloatRange vs)
    (hnd : NonDegenerate vs) :
    standardize Real.sqrt
        (rescaled vs (centerOf (getBounds vs))
          (0.5 / length Real.sqrt ((getBounds vs).max.sub (getBounds vs).min)))
      = Outcome.returned
        (rescaled vs (centerOf (getBounds vs))
          (0.5 / length Real.sqrt ((getBounds vs).max.sub (getBounds vs).min))) := by
  obtain ⟨hc, hl⟩ := rescaled_bounds vs hne hr hnd
  generalize rescaled vs (centerOf (getBounds vs))
    (0.5 / length Real.sqrt ((getBounds vs).max.sub (getBounds vs).min)) = out at hc hl ⊢
  have h5 : (0.5 : ℝ) ≠ 0 := by norm_num
  simp only [standardize, scalingOf, floatDiv, hl, hc, if_neg h5]
  congr 1
  have hid : ∀ v ∈ out, (fun vertex : Vertex ℝ =>
      ({ position := (vertex.position.sub { x := 0, y := 0, z := 0 }).scale (0.5 / 0.5) }
        : Vertex ℝ)) v = id v := by
    intro v _
    obtain ⟨⟨x, y, z⟩⟩ := v
    simp [vec3.sub, vec3.scale, div_self h5]
  rw [List.map_congr_left hid, List.map_id]

/-- A mesh with two vertices that differ on some axis has a non-degenerate box. -/
theorem nonDegenerate_of_lt {K : Type} [LinearOrderedField K] (vs : List (Vertex K))
    (v w : Vertex K) (hv : v ∈ vs) (hw : w ∈ vs) (a : Axis)
    (h : v.position.get a < w.position.get a) : NonDegenerate vs := by
  intro heq
  have h1 := (getBounds_le vs a v hv).1
  have h2 := (getBounds_le vs a w hw).2
  rw [heq] at h1
  exact absurd (lt_of_lt_of_le h h2) (not_lt.mpr h1)

/-- When all vertices of a non-empty mesh have the same position, `min` and `max` are
that position. -/
theorem getBounds_of_same {K : Type} [LinearOrderedField K] (vs : List (Vertex K))
    (p : vec3 K) (hne : vs ≠ []) (hsame : ∀ v ∈ vs, v.position = p)
    (hr : p.InFloatRange) : (getBounds vs).max = p ∧ (getBounds vs).min = p := by
  obtain ⟨v, rest, rfl⟩ := List.exists_cons_of_ne_nil hne
  have hv := hsame v (List.mem_cons_self _ _)
  have key : ∀ a, (getBounds (v :: rest)).max.get a = p.get a ∧
      (getBounds (v :: rest)).min.get a = p.get a := by
    intro a
    apply getBounds_eq_of
    · exact (vec3.inFloatRange_get hr a).1
    · exact (vec3.inFloatRange_get hr a).2
    · intro u hu; rw [hsame u hu]; exact ⟨le_rfl, le_rfl⟩
    · exact ⟨v, List.mem_cons_self _ _, by rw [hv]⟩
    · exact ⟨v, List.mem_cons_self _ _, by rw [hv]⟩
  exact ⟨vec3.ext_get (fun a => (key a).1), vec3.ext_get (fun a => (key a).2)⟩

/-- With `min == max` the diagonal has length zero and the quotient `0.5f / 0` is
not finite: on a non-empty mesh the outcome is `notFinite`. -/
theorem standardize_of_degenerate (vs : List (Vertex ℝ)) (hne : vs ≠ [])
    (hdeg : (getBounds vs).min = (getBounds vs).max) :
    standardize Real.sqrt vs = Outcome.notFinite := by
  obtain ⟨v, rest, rfl⟩ := List.exists_cons_of_ne_nil hne
  have hL : length Real.sqrt ((getBounds (v :: rest)).max.sub (getBounds (v :: rest)).min)
      = 0 := by
    rw [hdeg]; simp [length, vec3.sub]
  simp only [standardize, scalingOf, floatDiv, hL, if_true]

/-- No statement of `standardize` throws. -/
theorem standardize_never_throws {K : Type} [LinearOrderedField K] (sqrt : K → K)
    (vs : List (Vertex K)) (e : Exception) : standardize sqrt vs ≠ Outcome.thrown e := by
  simp only [standardize]
  split
  · exact fun h => Outcome.noConfusion h
  · split
    · exact fun h => Outcome.noConfusion h
    · exact fun h => Outcome.noConfusion h

theorem sqrt_25 : Real.sqrt (25 : ℝ) = 5 := by
  rw [show (25 : ℝ) = 5 * 5 by norm_num]
  exact Real.sqrt_mul_self (by norm_num)

theorem sqrt_quarter : Real.sqrt (0.25 : ℝ) = 0.5 := by
  rw [show (0.25 : ℝ) = 0.5 * 0.5 by norm_num]
  exact Real.sqrt_mul_self (by norm_num)

/-- The mesh with vertices `(0, 0, 0)` and `(3, 4, 0)`: the diagonal has length 5. -/
theorem standardize_pair :
    standardize Real.sqrt [⟨⟨0, 0, 0⟩⟩, ⟨⟨3, 4, 0⟩⟩]
      = Outcome.returned [⟨⟨-0.15, -0.2, 0⟩⟩, ⟨⟨0.15, 0.2, 0⟩⟩] := by
  have hb : getBounds ([⟨⟨0, 0, 0⟩⟩, ⟨⟨3, 4, 0⟩⟩] : List (Vertex ℝ))
      = { max := ⟨3, 4, 0⟩, min := ⟨0, 0, 0⟩ } := by
    simp only [getBounds, List.foldl_cons, List.foldl_nil, vec3.max, vec3.min, vec3.splat,
      FLT_LOWEST, FLT_MAX]
    norm_num
  have hl : length Real.sqrt ((⟨3, 4, 0⟩ : vec3 ℝ).sub ⟨0, 0, 0⟩) = 5 := by
    simp only [length, vec3.sub]
    rw [show ((3 : ℝ) - 0) * (3 - 0) + (4 - 0) * (4 - 0) + (0 - 0) * (0 - 0) = 25 by norm_num]
    exact sqrt_25
  simp only [standardize, scalingOf, floatDiv, hb, hl]
  norm_num [centerOf, vec3.add, vec3.divide, vec3.sub, vec3.scale]

/-- The standardized pair, standardized again: the diagonal has length one half. -/
theorem standardize_pair_again :
    standardize Real.sqrt [⟨⟨-0.15, -0.2, 0⟩⟩, ⟨⟨0.15, 0.2, 0⟩⟩]
      = Outcome.returned [⟨⟨-0.15, -0.2, 0⟩⟩, ⟨⟨0.15, 0.2, 0⟩⟩] := by
  have hb : getBounds ([⟨⟨-0.15, -0.2, 0⟩⟩, ⟨⟨0.15, 0.2, 0⟩⟩] : List (Vertex ℝ))
      = { max := ⟨0.15, 0.2, 0⟩, min := ⟨-0.15, -0.2, 0⟩ } := by
    simp only [getBounds, List.foldl_cons, List.foldl_nil, vec3.max, vec3.min, vec3.splat,
      FLT_LOWEST, FLT_MAX]
    norm_num
  have hl : length Real.sqrt ((⟨0.15, 0.2, 0⟩ : vec3 ℝ).sub ⟨-0.15, -0.2, 0⟩) = 0.5 := by
    simp only [length, vec3.sub]
    rw [show ((0.15 : ℝ) - -0.15) * (0.15 - -0.15) + (0.2 - -0.2) * (0.2 - -0.2)
      + (0 - 0) * (0 - 0) = 0.25 by norm_num]
    exact sqrt_quarter
  simp only [standardize, scalingOf, floatDiv, hb, hl]
  norm_num [centerOf, vec3.add, vec3.divide, vec3.sub, vec3.scale]

theorem inFloatRange_pair :
    InFloatRange ([⟨⟨0, 0, 0⟩⟩, ⟨⟨3, 4, 0⟩⟩] : List (Vertex ℝ)) := by
  intro v hv
  simp only [List.mem_cons, List.mem_singleton, List.not_mem_nil, or_false] at hv
  rcases hv with rfl | rfl <;>
    (simp only [vec3.InFloatRange, FLT_LOWEST, FLT_MAX]; norm_num)

theorem nonDegenerate_pair :
    NonDegenerate ([⟨⟨0, 0, 0⟩⟩, ⟨⟨3, 4, 0⟩⟩] : List (Vertex ℝ)) :=
  nonDegenerate_of_lt _ ⟨⟨0, 0, 0⟩⟩ ⟨⟨3, 4, 0⟩⟩ (by simp) (by simp) Axis.x
    (by simp only [vec3.get]; norm_num)

theorem inFloatRange_origin : (⟨0, 0, 0⟩ : vec3 ℝ).InFloatRange := by
  simp only [vec3.InFloatRange, FLT_LOWEST, FLT_MAX]; norm_num

theorem inFloatRange_123 : (⟨1, 2, 3⟩ : vec3 ℝ).InFloatRange := by
  simp only [vec3.InFloatRange, FLT_LOWEST, FLT_MAX]; norm_num

/-- C4: for every non-empty mesh with coordinates in the range of `float` and a
non-degenerate bounding box (`min != max`), in exact real arithmetic, `standardize`
returns vertices whose axis-aligned bounding box has its midpoint `(min + max) / 2`
at the origin and a diagonal `|max - min|` of length `0.5`.  The box is the one the
bounds loop computes for the output; it is the bounding box of the output: on every
axis it contains every output vertex and its two faces are attained. -/
theorem standardize_centres_and_scales (vs : List (Vertex ℝ)) (hne : vs ≠ [])
    (hr : InFloatRange vs) (hnd : NonDegenerate vs) :
    ∃ out, standardize Real.sqrt vs = Outcome.returned out ∧
      out.length = vs.length ∧
      centerOf (getBounds out) = { x := 0, y := 0, z := 0 } ∧
      length Real.sqrt ((getBounds out).max.sub (getBounds out).min) = 0.5 ∧
      (∀ a, ∀ v ∈ out, (getBounds out).min.get a ≤ v.position.get a ∧
        v.position.get a ≤ (getBounds out).max.get a) ∧
      (∀ a, (∃ v ∈ out, v.position.get a = (getBounds out).max.get a) ∧
        (∃ v ∈ out, v.position.get a = (getBounds out).min.get a)) := by
  obtain ⟨hc, hl⟩ := rescaled_bounds vs hne hr hnd
  have hs : (0 : ℝ) ≤ 0.5 / length Real.sqrt ((getBounds vs).max.sub (getBounds vs).min) :=
    div_nonneg (by norm_num) (le_of_lt (diag_length_pos vs hnd))
  exact ⟨_, standardize_of_nonDegenerate vs hnd, by simp [rescaled], hc, hl,
    fun a v hv => getBounds_le _ a v hv,
    fun a => getBounds_rescaled_attained vs hne hr _ hs a⟩

/-- Witness of C4: the mesh with vertices `(0, 0, 0)` and `(3, 4, 0)`. -/
theorem standardize_centres_and_scales_witness :
    (([⟨⟨0, 0, 0⟩⟩, ⟨⟨3, 4, 0⟩⟩] : List (Vertex ℝ)) ≠ [] ∧
      InFloatRange ([⟨⟨0, 0, 0⟩⟩, ⟨⟨3, 4, 0⟩⟩] : List (Vertex ℝ)) ∧
      NonDegenerate ([⟨⟨0, 0, 0⟩⟩, ⟨⟨3, 4, 0⟩⟩] : List (Vertex ℝ))) ∧
    ∃ out, standardize Real.sqrt [⟨⟨0, 0, 0⟩⟩, ⟨⟨3, 4, 0⟩⟩] = Outcome.returned out ∧
      out.length = ([⟨⟨0, 0, 0⟩⟩, ⟨⟨3, 4, 0⟩⟩] : List (Vertex ℝ)).length ∧
      centerOf (getBounds out) = { x := 0, y := 0, z := 0 } ∧
      length Real.sqrt ((getBounds out).max.sub (getBounds out).min) = 0.5 ∧
      (∀ a, ∀ v ∈ out, (getBounds out).min.get a ≤ v.position.get a ∧
        v.position.get a ≤ (getBounds out).max.get a) ∧
      (∀ a, (∃ v ∈ out, v.position.get a = (getBounds out).max.get a) ∧
        (∃ v ∈ out, v.position.get a = (getBounds out).min.get a)) :=
  ⟨⟨List.cons_ne_nil _ _, inFloatRange_pair, nonDegenerate_pair⟩,
    standardize_centres_and_scales _ (List.cons_ne_nil _ _) inFloatRange_pair
      nonDegenerate_pair⟩

/-- Counterexample to C5 as stated: on the mesh with the single vertex `(1, 2, 3)` the
bounding box has `min == max`, and `standardize` does not fail with
`DegenerateMeshError`: it returns normally after the division by zero. -/
theorem standardize_single_vertex_no_error :
    (getBounds ([⟨⟨1, 2, 3⟩⟩] : List (Vertex ℝ))).min
        = (getBounds ([⟨⟨1, 2, 3⟩⟩] : List (Vertex ℝ))).max ∧
    standardize Real.sqrt [⟨⟨1, 2, 3⟩⟩] = Outcome.notFinite ∧
    standardize Real.sqrt [⟨⟨1, 2, 3⟩⟩]
      ≠ Outcome.thrown Exception.DegenerateMeshError := by
  obtain ⟨h1, h2⟩ := getBounds_of_same ([⟨⟨1, 2, 3⟩⟩] : List (Vertex ℝ)) ⟨1, 2, 3⟩
    (List.cons_ne_nil _ _) (by simp) inFloatRange_123
  have hdeg := h2.trans h1.symm
  exact ⟨hdeg, standardize_of_degenerate _ (List.cons_ne_nil _ _) hdeg,
    standardize_never_throws _ _ _⟩

/-- C5, amended: for every non-empty mesh whose vertices all have the same position
(with coordinates in the range of `float`), the bounding box has `min == max` and
`standardize` raises no error: it returns normally, and because the scaling is the
quotient `0.5 / 0` the positions it writes are not finite numbers. -/
theorem standardize_degenerate_no_error (vs : List (Vertex ℝ)) (p : vec3 ℝ)
    (hne : vs ≠ []) (hsame : ∀ v ∈ vs, v.position = p) (hr : p.InFloatRange) :
    (getBounds vs).min = (getBounds vs).max ∧
    standardize Real.sqrt vs = Outcome.notFinite ∧
    ∀ e, standardize Real.sqrt vs ≠ Outcome.thrown e := by
  obtain ⟨h1, h2⟩ := getBounds_of_same vs p hne hsame hr
  have hdeg := h2.trans h1.symm
  exact ⟨hdeg, standardize_of_degenerate vs hne hdeg,
    fun e => standardize_never_throws _ _ e⟩

/-- Witness of C5 (amended): two vertices at the origin. -/
theorem standardize_degenerate_no_error_witness :
    (([⟨⟨0, 0, 0⟩⟩, ⟨⟨0, 0, 0⟩⟩] : List (Vertex ℝ)) ≠ [] ∧
      (∀ v ∈ ([⟨⟨0, 0, 0⟩⟩, ⟨⟨0, 0, 0⟩⟩] : List (Vertex ℝ)), v.position = ⟨0, 0, 0⟩) ∧
      (⟨0, 0, 0⟩ : vec3 ℝ).InFloatRange) ∧
    ((getBounds ([⟨⟨0, 0, 0⟩⟩, ⟨⟨0, 0, 0⟩⟩] : List (Vertex ℝ))).min
        = (getBounds ([⟨⟨0, 0, 0⟩⟩, ⟨⟨0, 0, 0⟩⟩] : List (Vertex ℝ))).max ∧
      standardize Real.sqrt [⟨⟨0, 0, 0⟩⟩, ⟨⟨0, 0, 0⟩⟩] = Outcome.notFinite ∧
      ∀ e, standardize Real.sqrt [⟨⟨0, 0, 0⟩⟩, ⟨⟨0, 0, 0⟩⟩] ≠ Outcome.thrown e) :=
  ⟨⟨List.cons_ne_nil _ _, by simp, inFloatRange_origin⟩,
    standardize_degenerate_no_error _ ⟨0, 0, 0⟩ (List.cons_ne_nil _ _) (by simp)
      inFloatRange_origin⟩

/-- Counterexample to C6 as stated: the mesh with vertices `(0, 0, 0)` and `(3, 4, 0)`
has a non-degenerate bounding box, and applying `standardize` to the standardized
vertices `(-0.15, -0.2, 0)`, `(0.15, 0.2, 0)` returns the same positions. -/
theorem standardize_twice_pair :
    NonDegenerate ([⟨⟨0, 0, 0⟩⟩, ⟨⟨3, 4, 0⟩⟩] : List (Vertex ℝ)) ∧
    standardize Real.sqrt [⟨⟨0, 0, 0⟩⟩, ⟨⟨3, 4, 0⟩⟩]
      = Outcome.returned [⟨⟨-0.15, -0.2, 0⟩⟩, ⟨⟨0.15, 0.2, 0⟩⟩] ∧
    standardize Real.sqrt [⟨⟨-0.15, -0.2, 0⟩⟩, ⟨⟨0.15, 0.2, 0⟩⟩]
      = Outcome.returned [⟨⟨-0.15, -0.2, 0⟩⟩, ⟨⟨0.15, 0.2, 0⟩⟩] :=
  ⟨nonDegenerate_pair, standardize_pair, standardize_pair_again⟩

/-- C6, amended: in exact real arithmetic `standardize` is idempotent.  For every
non-empty mesh with coordinates in the range of `float` and a non-degenerate
bounding box, applying `standardize` a second time, to the vertices the first run
wrote, returns them unchanged: the second run computes the origin as `center` and
one as `scaling`. -/
theorem standardize_idempotent (vs : List (Vertex ℝ)) (hne : vs ≠ [])
    (hr : InFloatRange vs) (hnd : NonDegenerate vs) :
    ∃ out, standardize Real.sqrt vs = Outcome.returned out ∧
      centerOf (getBounds out) = { x := 0, y := 0, z := 0 } ∧
      scalingOf Real.sqrt (getBounds out) = some 1 ∧
      standardize Real.sqrt out = Outcome.returned out := by
  obtain ⟨hc, hl⟩ := rescaled_bounds vs hne hr hnd
  refine ⟨_, standardize_of_nonDegenerate vs hnd, hc, ?_, standardize_rescaled vs hne hr hnd⟩
  have h5 : (0.5 : ℝ) ≠ 0 := by norm_num
  simp only [scalingOf, floatDiv, hl, if_neg h5, div_self h5]

/-- Witness of C6 (amended): the mesh with vertices `(0, 0, 0)` and `(3, 4, 0)`. -/
theorem standardize_idempotent_witness :
    (([⟨⟨0, 0, 0⟩⟩, ⟨⟨3, 4, 0⟩⟩] : List (Vertex ℝ)) ≠ [] ∧
      InFloatRange ([⟨⟨0, 0, 0⟩⟩, ⟨⟨3, 4, 0⟩⟩] : List (Vertex ℝ)) ∧
      NonDegenerate ([⟨⟨0, 0, 0⟩⟩, ⟨⟨3, 4, 0⟩⟩] : List (Vertex ℝ))) ∧
    ∃ out, standardize Real.sqrt [⟨⟨0, 0, 0⟩⟩, ⟨⟨3, 4, 0⟩⟩] = Outcome.returned out ∧
      centerOf (getBounds out) = { x := 0, y := 0, z := 0 } ∧
      scalingOf Real.sqrt (getBounds out) = some 1 ∧
      standardize Real.sqrt out = Outcome.returned out :=
  ⟨⟨List.cons_ne_nil _ _, inFloatRange_pair, nonDegenerate_pair⟩,
    standardize_idempotent _ (List.cons_ne_nil _ _) inFloatRange_pair nonDegenerate_pair⟩

/-! ## Proofs: errors of the deduplication loop -/

theorem cornerStep_error_of_not_inRange {K : Type} [DecidableEq K] (attrib : attrib_t K)
    (st : LoadState K) (index : index_t) (h : ¬ cornerInRange attrib index) :
    cornerStep attrib st index = Except.error Exception.out_of_range := by
  have hat : ∀ (n : Int), 0 ≤ n → (attrib.vertices.length : Int) ≤ n →
      vectorAt attrib.vertices n = Except.error Exception.out_of_range := by
    intro n h0 hn
    have : attrib.vertices.length ≤ n.toNat := by omega
    simp [vectorAt, h0, List.getElem?_eq_none this]
  have hneg : ∀ (n : Int), n < 0 →
      vectorAt attrib.vertices n = Except.error Exception.out_of_range := by
    intro n hn
    simp [vectorAt, not_le.mpr hn]
  have hcases : ∀ (n : Int), (∃ a, vectorAt attrib.vertices n = Except.ok a) ∨
      vectorAt attrib.vertices n = Except.error Exception.out_of_range := by
    intro n
    unfold vectorAt
    split_ifs
    · cases attrib.vertices[n.toNat]? with
      | some a => exact Or.inl ⟨a, rfl⟩
      | none => exact Or.inr rfl
    · exact Or.inr rfl
  have h2 : vectorAt attrib.vertices (3 * index.vertex_index + 2)
      = Except.error Exception.out_of_range := by
    by_cases h0 : 0 ≤ index.vertex_index
    · apply hat _ (by omega)
      by_contra hlt
      exact h ⟨h0, by omega⟩
    · by_cases h3 : 0 ≤ 3 * index.vertex_index + 2
      · omega
      · exact hneg _ (by omega)
  simp only [cornerStep]
  rcases hcases (3 * index.vertex_index + 0) with ⟨a, ha⟩ | ha
  · rw [ha]
    rcases hcases (3 * index.vertex_index + 1) with ⟨b, hb⟩ | hb
    · rw [hb]; simp only [h2]
    · rw [hb]
  · rw [ha]

theorem shapeLoop_error_of_not_inRange {K : Type} [DecidableEq K] (attrib : attrib_t K) :
    ∀ (cs : List index_t) (st : LoadState K) (ps : List (Vertex K)),
      DedupInv st ps → (∃ index ∈ cs, ¬ cornerInRange attrib index) →
      shapeLoop attrib cs st = Except.error Exception.out_of_range
  | [], _, _, _, h => by obtain ⟨_, hm, _⟩ := h; cases hm
  | index :: rest, st, ps, hinv, h => by
    by_cases hr : cornerInRange attrib index
    · obtain ⟨v, st1, n, -, hstep, hinv1, -⟩ := DedupInv.step attrib st ps index hinv hr
      have h2 : ∃ c ∈ rest, ¬ cornerInRange attrib c := by
        obtain ⟨c, hc, hbad⟩ := h
        rcases List.mem_cons.mp hc with rfl | hc2
        · exact absurd hr hbad
        · exact ⟨c, hc2, hbad⟩
      simp only [shapeLoop, hstep]
      exact shapeLoop_error_of_not_inRange attrib rest st1 (ps ++ [v]) hinv1 h2
    · simp only [shapeLoop, cornerStep_error_of_not_inRange attrib st index hr]

theorem not_inRange_iff {K : Type} (attrib : attrib_t K) (shapes : List shape_t) :
    ¬ InRange attrib shapes ↔ ∃ index ∈ corners shapes, ¬ cornerInRange attrib index := by
  constructor
  · intro h
    by_contra hcon
    apply h
    intro shape hs index hi
    by_contra hbad
    exact hcon ⟨index, by simp only [corners, List.mem_flatMap]; exact ⟨shape, hs, hi⟩, hbad⟩
  · rintro ⟨index, hm, hbad⟩ h
    exact hbad (inRange_corners attrib shapes h index hm)

/-- With the `int` arithmetic taken exactly, the deduplication loop fails with an error
if and only if some corner references a position outside the flat attribute array,
that is, some corner has a vertex index `i` that is negative or has
`3 * i + 2 >= attrib.vertices.size()`; the error is then the `out_of_range` of
`std::vector::at`.  When every corner is in range the loop completes without error,
and only then. -/
theorem dedup_error_iff {K : Type} [DecidableEq K] (attrib : attrib_t K)
    (shapes : List shape_t) :
    ((∃ e, dedup attrib shapes = Except.error e) ↔
      ∃ index ∈ corners shapes, index.vertex_index < 0 ∨
        (attrib.vertices.length : Int) ≤ 3 * index.vertex_index + 2) ∧
    (∀ e, dedup attrib shapes = Except.error e → e = Exception.out_of_range) ∧
    ((∃ st, dedup attrib shapes = Except.ok st) ↔ InRange attrib shapes) := by
  have hbad : (∃ index ∈ corners shapes, index.vertex_index < 0 ∨
        (attrib.vertices.length : Int) ≤ 3 * index.vertex_index + 2) ↔
      ¬ InRange attrib shapes := by
    rw [not_inRange_iff]
    constructor
    · rintro ⟨index, hm, h⟩
      refine ⟨index, hm, ?_⟩
      rintro ⟨h0, h2⟩
      omega
    · rintro ⟨index, hm, h⟩
      refine ⟨index, hm, ?_⟩
      by_contra hcon
      exact h ⟨by omega, by omega⟩
  have herr : ¬ InRange attrib shapes →
      dedup attrib shapes = Except.error Exception.out_of_range := by
    intro h
    rw [dedup, shapesLoop_eq_shapeLoop]
    exact shapeLoop_error_of_not_inRange attrib (corners shapes) initialState []
      DedupInv.initial ((not_inRange_iff attrib shapes).mp h)
  refine ⟨?_, ?_, ?_⟩
  · rw [hbad]
    constructor
    · rintro ⟨e, he⟩ hin
      obtain ⟨st, hst, -⟩ := dedup_inv attrib shapes hin
      rw [hst] at he; cases he
    · intro h; exact ⟨_, herr h⟩
  · intro e he
    by_cases hin : InRange attrib shapes
    · obtain ⟨st, hst, -⟩ := dedup_inv attrib shapes hin
      rw [hst] at he; cases he
    · rw [herr hin] at he; cases he; rfl
  · constructor
    · rintro ⟨st, hst⟩
      by_contra hin
      rw [herr hin] at hst; cases hst
    · intro hin
      obtain ⟨st, hst, -⟩ := dedup_inv attrib shapes hin
      exact ⟨st, hst⟩

/-- The out-of-range corner stops the loop: two concrete runs. -/
theorem dedup_out_of_range_examples :
    dedup (⟨[0, 0, 0]⟩ : attrib_t ℚ) [⟨⟨[⟨0⟩, ⟨1⟩]⟩⟩]
      = Except.error Exception.out_of_range ∧
    dedup (⟨[0, 0, 0]⟩ : attrib_t ℚ) [⟨⟨[⟨-1⟩]⟩⟩]
      = Except.error Exception.out_of_range ∧
    dedup (⟨[0, 0, 0, 1]⟩ : attrib_t ℚ) [⟨⟨[⟨0⟩]⟩⟩, ⟨⟨[⟨1⟩]⟩⟩]
      = Except.error Exception.out_of_range :=
  ⟨rfl, rfl, rfl⟩

/-! ## Proofs: timer gating and movement bounds -/

/-- C14: timer gating of `onUpdate`, with the elapsed time of the timer as the state
component `m_timer`.  If `elapsed < interval`, `onUpdate` changes neither the status
nor the colour (nor the position) and does not reset the timer.  If
`elapsed >= interval`, in particular when the two are equal, the timer is reset to
zero in both statuses, status and position are unchanged, and the colour changes only
when the status is `moving`: gray becomes white and any other colour becomes gray. -/
theorem onUpdate_timer_gate {K : Type} [LinearOrderedField K] (c : Constants K)
    (s : SelectState K) :
    (s.m_timer < c.m_tempo →
      (onUpdate c s).m_select = s.m_select ∧ (onUpdate c s).m_timer = s.m_timer) ∧
    (c.m_tempo ≤ s.m_timer →
      (onUpdate c s).m_timer = 0 ∧
      (onUpdate c s).m_select.m_status = s.m_select.m_status ∧
      (onUpdate c s).m_select.m_position = s.m_select.m_position ∧
      (s.m_select.m_status = StatusSelect.moving → s.m_select.m_color = c.gray →
        (onUpdate c s).m_select.m_color = c.white) ∧
      (s.m_select.m_status = StatusSelect.moving → s.m_select.m_color ≠ c.gray →
        (onUpdate c s).m_select.m_color = c.gray) ∧
      (s.m_select.m_status ≠ StatusSelect.moving →
        (onUpdate c s).m_select.m_color = s.m_select.m_color)) ∧
    (s.m_timer = c.m_tempo → (onUpdate c s).m_timer = 0) := by
  refine ⟨?_, ?_, ?_⟩
  · intro h
    simp only [onUpdate, if_pos h, and_self]
  · intro h
    have hn : ¬ s.m_timer < c.m_tempo := not_lt.mpr h
    simp only [onUpdate, if_neg hn]
    refine ⟨?_, ?_, ?_, ?_, ?_, ?_⟩
    · split_ifs <;> rfl
    · split_ifs <;> rfl
    · split_ifs <;> rfl
    · intro hm hg; rw [if_pos hm, if_pos hg]
    · intro hm hg; rw [if_pos hm, if_neg hg]
    · intro hm; rw [if_neg hm]
  · intro h
    have hn : ¬ s.m_timer < c.m_tempo := not_lt.mpr (le_of_eq h.symm)
    simp only [onUpdate, if_neg hn]
    split_ifs <;> rfl

theorem InBounds.preserved_by_call {K : Type} [LinearOrderedField K] (c : Constants K) (call : Call K)
    (s : SelectState K) (h : InBounds s.m_select.m_position) :
    InBounds (call.run c s).m_select.m_position := by
  cases call with
  | onUpdate elapsed =>
    simp only [Call.run, onUpdate]
    split_ifs <;> exact h
  | onSelect sel =>
    simp only [Call.run, onSelect]
    split_ifs <;> exact h
  | onxMove move =>
    simp only [Call.run, onxMove]
    split_ifs with hc
    · exact ⟨⟨hc.1, hc.2⟩, h.2⟩
    · exact h
  | onzMove move =>
    simp only [Call.run, onzMove]
    split_ifs with hc
    · exact ⟨h.1, ⟨hc.1, hc.2⟩⟩
    · exact h

theorem InBounds.preserved_by_calls {K : Type} [LinearOrderedField K] (c : Constants K) :
    ∀ (calls : List (Call K)) (s : SelectState K), InBounds s.m_select.m_position →
      InBounds (runCalls c calls s).m_select.m_position
  | [], _, h => h
  | call :: rest, s, h => InBounds.preserved_by_calls c rest (call.run c s) (InBounds.preserved_by_call c call s h)

/-- C16: the movement bounds are an invariant.  If the position satisfies
`-0.8 <= x <= 0.6` and `-0.8 <= z <= 0.6`, it satisfies both bounds after every step
of every finite sequence of calls of `onxMove`, `onzMove`, `onSelect` and `onUpdate`
with arbitrary arguments; and `onxMove` and `onzMove` never change the `y`
coordinate, the status or the colour. -/
theorem movement_bounds_invariant {K : Type} [LinearOrderedField K] (c : Constants K)
    (s : SelectState K) (calls : List (Call K)) (h : InBounds s.m_select.m_position) :
    (∀ k, InBounds (runCalls c (calls.take k) s).m_select.m_position) ∧
    InBounds (runCalls c calls s).m_select.m_position ∧
    (∀ (move : K) (t : SelectState K),
      (onxMove move t).m_select.m_position.y = t.m_select.m_position.y ∧
      (onxMove move t).m_select.m_status = t.m_select.m_status ∧
      (onxMove move t).m_select.m_color = t.m_select.m_color ∧
      (onzMove move t).m_select.m_position.y = t.m_select.m_position.y ∧
      (onzMove move t).m_select.m_status = t.m_select.m_status ∧
      (onzMove move t).m_select.m_color = t.m_select.m_color) := by
  refine ⟨fun k => InBounds.preserved_by_calls c _ s h, InBounds.preserved_by_calls c _ s h, ?_⟩
  intro move t
  simp only [onxMove, onzMove]
  refine ⟨?_, ?_, ?_, ?_, ?_, ?_⟩ <;> split_ifs <;> rfl

/-- Witness of C16: five calls from the state after `onCreate`; the second and the
fourth are rejected. -/
theorem movement_bounds_invariant_witness :
    InBounds exampleState.m_select.m_position ∧
    ((∀ k, InBounds (runCalls exampleConstants
        ([Call.onxMove (0.6 : ℚ), Call.onxMove 0.1, Call.onUpdate 1, Call.onzMove (-0.9),
          Call.onSelect true].take k) exampleState).m_select.m_position) ∧
    InBounds (runCalls exampleConstants
        [Call.onxMove (0.6 : ℚ), Call.onxMove 0.1, Call.onUpdate 1, Call.onzMove (-0.9),
          Call.onSelect true] exampleState).m_select.m_position ∧
    (∀ (move : ℚ) (t : SelectState ℚ),
      (onxMove move t).m_select.m_position.y = t.m_select.m_position.y ∧
      (onxMove move t).m_select.m_status = t.m_select.m_status ∧
      (onxMove move t).m_select.m_color = t.m_select.m_color ∧
      (onzMove move t).m_select.m_position.y = t.m_select.m_position.y ∧
      (onzMove move t).m_select.m_status = t.m_select.m_status ∧
      (onzMove move t).m_select.m_color = t.m_select.m_color)) :=
  ⟨by norm_num [InBounds, exampleState, onCreate, exampleConstants],
    movement_bounds_invariant exampleConstants exampleState _
      (by norm_num [InBounds, exampleState, onCreate, exampleConstants])⟩

/-! ## Proofs: size and invariance of the standardized mesh -/

/-- Every vertex is within half the box extent of the centre, on every axis. -/
theorem sub_center_sq_le {K : Type} [LinearOrderedField K] (vs : List (Vertex K))
    (a : Axis) (v : Vertex K) (hv : v ∈ vs) :
    (v.position.get a - (centerOf (getBounds vs)).get a)
        * (v.position.get a - (centerOf (getBounds vs)).get a)
      ≤ (((getBounds vs).max.get a - (getBounds vs).min.get a) / 2)
        * (((getBounds vs).max.get a - (getBounds vs).min.get a) / 2) := by
  obtain ⟨h1, h2⟩ := getBounds_le vs a v hv
  rw [centerOf_get]
  nlinarith

/-- The squared norm of every vertex written by `standardize` is at most `1 / 16`. -/
theorem rescaled_norm_sq_le (vs : List (Vertex ℝ)) (hnd : NonDegenerate vs)
    (v : Vertex ℝ)
    (hv : v ∈ rescaled vs (centerOf (getBounds vs))
      (0.5 / length Real.sqrt ((getBounds vs).max.sub (getBounds vs).min))) :
    v.position.x * v.position.x + v.position.y * v.position.y
      + v.position.z * v.position.z ≤ 1 / 16 := by
  have hS := diag_sq_pos vs hnd
  have hL := diag_length_pos vs hnd
  have hLL : length Real.sqrt ((getBounds vs).max.sub (getBounds vs).min)
        * length Real.sqrt ((getBounds vs).max.sub (getBounds vs).min)
      = ((getBounds vs).max.sub (getBounds vs).min).x
          * ((getBounds vs).max.sub (getBounds vs).min).x
        + ((getBounds vs).max.sub (getBounds vs).min).y
          * ((getBounds vs).max.sub (getBounds vs).min).y
        + ((getBounds vs).max.sub (getBounds vs).min).z
          * ((getBounds vs).max.sub (getBounds vs).min).z :=
    Real.mul_self_sqrt (le_of_lt hS)
  generalize length Real.sqrt ((getBounds vs).max.sub (getBounds vs).min) = L at hL hLL hv
  have hLne : L ≠ 0 := ne_of_gt hL
  have hsL : 0.5 / L * L = 0.5 := div_mul_cancel₀ _ hLne
  generalize (0.5 : ℝ) / L = s at hv hsL
  obtain ⟨u, hu, rfl⟩ := List.mem_map.mp hv
  have hx := sub_center_sq_le vs Axis.x u hu
  have hy := sub_center_sq_le vs Axis.y u hu
  have hz := sub_center_sq_le vs Axis.z u hu
  simp only [vec3.get] at hx hy hz
  simp only [vec3.sub] at hLL
  simp only [vec3.sub, vec3.scale]
  generalize (getBounds vs).max.x - (getBounds vs).min.x = dx at hLL hx
  generalize (getBounds vs).max.y - (getBounds vs).min.y = dy at hLL hy
  generalize (getBounds vs).max.z - (getBounds vs).min.z = dz at hLL hz
  generalize u.position.x - (centerOf (getBounds vs)).x = ex at hx
  generalize u.position.y - (centerOf (getBounds vs)).y = ey at hy
  generalize u.position.z - (centerOf (getBounds vs)).z = ez at hz
  have hss : 0 ≤ s * s := mul_self_nonneg s
  calc ex * s * (ex * s) + ey * s * (ey * s) + ez * s * (ez * s)
      = (ex * ex + ey * ey + ez * ez) * (s * s) := by ring
    _ ≤ (dx / 2 * (dx / 2) + dy / 2 * (dy / 2) + dz / 2 * (dz / 2)) * (s * s) :=
        mul_le_mul_of_nonneg_right (by linarith) hss
    _ = (dx * dx + dy * dy + dz * dz) * (s * s) / 4 := by ring
    _ = (L * L) * (s * s) / 4 := by rw [hLL]
    _ = (s * L) * (s * L) / 4 := by ring
    _ = 1 / 16 := by rw [hsL]; norm_num

/-- C12: for every mesh with a non-degenerate bounding box, in exact real arithmetic,
every vertex written by `standardize` lies inside the unit-radius volume centred at
the origin: its Euclidean norm is at most 1 and each coordinate lies in `[-1, 1]`.
(The norm is in fact at most `0.25`.) -/
theorem standardize_in_unit_ball (vs : List (Vertex ℝ)) (hnd : NonDegenerate vs) :
    ∃ out, standardize Real.sqrt vs = Outcome.returned out ∧
      ∀ v ∈ out, length Real.sqrt v.position ≤ 1 ∧
        (-1 ≤ v.position.x ∧ v.position.x ≤ 1) ∧
        (-1 ≤ v.position.y ∧ v.position.y ≤ 1) ∧
        (-1 ≤ v.position.z ∧ v.position.z ≤ 1) ∧
        length Real.sqrt v.position ≤ 0.25 := by
  refine ⟨_, standardize_of_nonDegenerate vs hnd, ?_⟩
  intro v hv
  have h := rescaled_norm_sq_le vs hnd v hv
  have hx := mul_self_nonneg v.position.x
  have hy := mul_self_nonneg v.position.y
  have hz := mul_self_nonneg v.position.z
  have hq : length Real.sqrt v.position ≤ 0.25 := by
    simp only [length]
    rw [Real.sqrt_le_left (by norm_num)]
    norm_num
    linarith
  refine ⟨le_trans hq (by norm_num), ⟨?_, ?_⟩, ⟨?_, ?_⟩, ⟨?_, ?_⟩, hq⟩ <;> nlinarith

/-- Witness of C12: the mesh with vertices `(0, 0, 0)` and `(3, 4, 0)`. -/
theorem standardize_in_unit_ball_witness :
    NonDegenerate ([⟨⟨0, 0, 0⟩⟩, ⟨⟨3, 4, 0⟩⟩] : List (Vertex ℝ)) ∧
    ∃ out, standardize Real.sqrt [⟨⟨0, 0, 0⟩⟩, ⟨⟨3, 4, 0⟩⟩] = Outcome.returned out ∧
      ∀ v ∈ out, length Real.sqrt v.position ≤ 1 ∧
        (-1 ≤ v.position.x ∧ v.position.x ≤ 1) ∧
        (-1 ≤ v.position.y ∧ v.position.y ≤ 1) ∧
        (-1 ≤ v.position.z ∧ v.position.z ≤ 1) ∧
        length Real.sqrt v.position ≤ 0.25 :=
  ⟨nonDegenerate_pair, standardize_in_unit_ball _ nonDegenerate_pair⟩

theorem rescale_injective {K : Type} [LinearOrderedField K] (c : vec3 K) (s : K)
    (hs : s ≠ 0) :
    Function.Injective (fun vertex : Vertex K =>
      ({ position := (vertex.position.sub c).scale s } : Vertex K)) := by
  intro v w h
  obtain ⟨⟨vx, vy, vz⟩⟩ := v
  obtain ⟨⟨wx, wy, wz⟩⟩ := w
  simp only [vec3.sub, vec3.scale, Vertex.mk.injEq, vec3.mk.injEq] at h
  obtain ⟨hx, hy, hz⟩ := h
  have ex := mul_right_cancel₀ hs hx
  have ey := mul_right_cancel₀ hs hy
  have ez := mul_right_cancel₀ hs hz
  simp only [Vertex.mk.injEq, vec3.mk.injEq]
  exact ⟨by linarith, by linarith, by linarith⟩

theorem inRange_of_dedup_ok {K : Type} [DecidableEq K] (attrib : attrib_t K)
    (shapes : List shape_t) (st : LoadState K) (h : dedup attrib shapes = Except.ok st) :
    InRange attrib shapes := by
  by_contra hin
  rw [dedup, shapesLoop_eq_shapeLoop,
    shapeLoop_error_of_not_inRange attrib (corners shapes) initialState []
      DedupInv.initial ((not_inRange_iff attrib shapes).mp hin)] at h
  cases h

theorem loadObj_of_dedup_ok (attrib : attrib_t ℝ) (shapes : List shape_t)
    (st : LoadState ℝ) (out : List (Vertex ℝ))
    (hrun : dedup attrib shapes = Except.ok st)
    (hstd : standardize Real.sqrt st.m_vertices = Outcome.returned out) :
    loadObj Real.sqrt attrib shapes
      = Outcome.returned { m_vertices := out, m_indices := st.m_indices, hash := st.hash } := by
  unfold loadObj
  rw [hrun]
  simp only [hstd]

/-- The deduplication loop on a real mesh: a triangle whose third corner repeats the
first. -/
theorem dedup_real_example :
    dedup (⟨[0, 0, 0, 3, 4, 0]⟩ : attrib_t ℝ) [⟨⟨[⟨0⟩, ⟨1⟩, ⟨0⟩]⟩⟩]
      = Except.ok { m_vertices := [⟨⟨0, 0, 0⟩⟩, ⟨⟨3, 4, 0⟩⟩]
                    m_indices := [0, 1, 0]
                    hash := [(⟨⟨3, 4, 0⟩⟩, 1), (⟨⟨0, 0, 0⟩⟩, 0)] } := by
  have s1 : cornerStep (⟨[0, 0, 0, 3, 4, 0]⟩ : attrib_t ℝ) initialState ⟨0⟩
      = Except.ok { m_vertices := [⟨⟨0, 0, 0⟩⟩], m_indices := [0],
                    hash := [(⟨⟨0, 0, 0⟩⟩, 0)] } := by
    simp [cornerStep, vectorAt, initialState, hashContains, hashFind, hashAssign, hashIndex]
  have s2 : cornerStep (⟨[0, 0, 0, 3, 4, 0]⟩ : attrib_t ℝ)
      { m_vertices := [⟨⟨0, 0, 0⟩⟩], m_indices := [0], hash := [(⟨⟨0, 0, 0⟩⟩, 0)] } ⟨1⟩
      = Except.ok { m_vertices := [⟨⟨0, 0, 0⟩⟩, ⟨⟨3, 4, 0⟩⟩], m_indices := [0, 1],
                    hash := [(⟨⟨3, 4, 0⟩⟩, 1), (⟨⟨0, 0, 0⟩⟩, 0)] } := by
    simp [cornerStep, vectorAt, hashContains, hashFind, hashAssign, hashIndex]
  have s3 : cornerStep (⟨[0, 0, 0, 3, 4, 0]⟩ : attrib_t ℝ)
      { m_vertices := [⟨⟨0, 0, 0⟩⟩, ⟨⟨3, 4, 0⟩⟩], m_indices := [0, 1],
        hash := [(⟨⟨3, 4, 0⟩⟩, 1), (⟨⟨0, 0, 0⟩⟩, 0)] } ⟨0⟩
      = Except.ok { m_vertices := [⟨⟨0, 0, 0⟩⟩, ⟨⟨3, 4, 0⟩⟩], m_indices := [0, 1, 0],
                    hash := [(⟨⟨3, 4, 0⟩⟩, 1), (⟨⟨0, 0, 0⟩⟩, 0)] } := by
    simp [cornerStep, vectorAt, hashContains, hashFind, hashAssign, hashIndex]
  simp only [dedup, shapesLoop, shapeLoop, s1, s2, s3]

theorem affine_get {K : Type} [LinearOrderedField K] (s : K) (t p : vec3 K) (a : Axis) :
    (vec3.affine s t p).get a = s * p.get a + t.get a := by
  cases a <;> rfl

/-- The bounds of the transformed mesh are the transformed bounds. -/
theorem getBounds_transformed {K : Type} [LinearOrderedField K] (vs : List (Vertex K))
    (hne : vs ≠ []) (s : K) (t : vec3 K) (hs : 0 ≤ s) (hr : InFloatRange vs)
    (hr2 : InFloatRange (transformed s t vs)) :
    (getBounds (transformed s t vs)).max = vec3.affine s t (getBounds vs).max ∧
    (getBounds (transformed s t vs)).min = vec3.affine s t (getBounds vs).min := by
  have key : ∀ a, (getBounds (transformed s t vs)).max.get a
        = s * (getBounds vs).max.get a + t.get a ∧
      (getBounds (transformed s t vs)).min.get a
        = s * (getBounds vs).min.get a + t.get a := by
    intro a
    obtain ⟨⟨v, hv, e1⟩, ⟨w, hw, e2⟩⟩ := getBounds_attained vs hne hr a
    have hv2 : ({ position := vec3.affine s t v.position } : Vertex K) ∈ transformed s t vs :=
      List.mem_map_of_mem _ hv
    have hw2 : ({ position := vec3.affine s t w.position } : Vertex K) ∈ transformed s t vs :=
      List.mem_map_of_mem _ hw
    have rv := (vec3.inFloatRange_get (hr2 _ hv2) a).1
    have rw2 := (vec3.inFloatRange_get (hr2 _ hw2) a).2
    simp only [affine_get, e1] at rv
    simp only [affine_get, e2] at rw2
    apply getBounds_eq_of
    · exact rv
    · exact rw2
    · intro u hu
      obtain ⟨u0, hu0, rfl⟩ := List.mem_map.mp hu
      obtain ⟨h1, h2⟩ := getBounds_le vs a u0 hu0
      simp only [affine_get]
      constructor
      · have := mul_le_mul_of_nonneg_left h1 hs; linarith
      · have := mul_le_mul_of_nonneg_left h2 hs; linarith
    · exact ⟨_, hv2, by simp only [affine_get, e1]⟩
    · exact ⟨_, hw2, by simp only [affine_get, e2]⟩
  constructor
  · apply vec3.ext_get; intro a; rw [affine_get]; exact (key a).1
  · apply vec3.ext_get; intro a; rw [affine_get]; exact (key a).2

/-- The diagonal of the transformed box is `s` times as long. -/
theorem length_affine_sub (s : ℝ) (t p q : vec3 ℝ) (hs : 0 ≤ s) :
    length Real.sqrt ((vec3.affine s t p).sub (vec3.affine s t q))
      = s * length Real.sqrt (p.sub q) := by
  simp only [length, vec3.sub, vec3.affine]
  have hsum : (s * p.x + t.x - (s * q.x + t.x)) * (s * p.x + t.x - (s * q.x + t.x))
      + (s * p.y + t.y - (s * q.y + t.y)) * (s * p.y + t.y - (s * q.y + t.y))
      + (s * p.z + t.z - (s * q.z + t.z)) * (s * p.z + t.z - (s * q.z + t.z))
      = s * s * ((p.x - q.x) * (p.x - q.x) + (p.y - q.y) * (p.y - q.y)
        + (p.z - q.z) * (p.z - q.z)) := by ring
  rw [hsum, Real.sqrt_mul (mul_self_nonneg s), Real.sqrt_mul_self hs]

theorem centerOf_affine {K : Type} [LinearOrderedField K] (s : K) (t : vec3 K)
    (b : Bounds K) :
    centerOf { max := vec3.affine s t b.max, min := vec3.affine s t b.min }
      = vec3.affine s t (centerOf b) := by
  apply vec3.ext_get
  intro a
  cases a <;> simp only [centerOf, vec3.add, vec3.divide, vec3.affine, vec3.get] <;> ring

/-- The list written for the transformed mesh is the list written for the mesh. -/
theorem rescaled_transformed (vs : List (Vertex ℝ)) (s L : ℝ) (t c : vec3 ℝ) (hs : 0 < s)
    (hL : 0 < L) :
    rescaled (transformed s t vs) (vec3.affine s t c) (0.5 / (s * L))
      = rescaled vs c (0.5 / L) := by
  simp only [rescaled, transformed, List.map_map]
  apply List.map_congr_left
  intro v _
  have hs0 : s ≠ 0 := ne_of_gt hs
  have hL0 : L ≠ 0 := ne_of_gt hL
  simp only [Function.comp, vec3.sub, vec3.scale, vec3.affine, Vertex.mk.injEq,
    vec3.mk.injEq]
  refine ⟨?_, ?_, ?_⟩ <;> field_simp <;> ring

theorem standardize_transformed (vs : List (Vertex ℝ)) (s : ℝ) (t : vec3 ℝ) (hs : 0 < s)
    (hnd : NonDegenerate vs) (hr : InFloatRange vs)
    (hr2 : InFloatRange (transformed s t vs)) :
    standardize Real.sqrt (transformed s t vs) = Outcome.returned
      (rescaled vs (centerOf (getBounds vs))
        (0.5 / length Real.sqrt ((getBounds vs).max.sub (getBounds vs).min))) := by
  by_cases hne : vs = []
  · subst hne
    have := standardize_of_nonDegenerate ([] : List (Vertex ℝ)) hnd
    simpa [transformed, rescaled] using this
  · obtain ⟨hmax, hmin⟩ := getBounds_transformed vs hne s t (le_of_lt hs) hr hr2
    have hL := diag_length_pos vs hnd
    have hlen : length Real.sqrt ((getBounds (transformed s t vs)).max.sub
        (getBounds (transformed s t vs)).min)
        = s * length Real.sqrt ((getBounds vs).max.sub (getBounds vs).min) := by
      rw [hmax, hmin]; exact length_affine_sub s t _ _ (le_of_lt hs)
    have hcen : centerOf (getBounds (transformed s t vs))
        = vec3.affine s t (centerOf (getBounds vs)) := by
      have := centerOf_affine s t (getBounds vs)
      rw [← hmax, ← hmin] at this
      exact this
    have hne0 : s * length Real.sqrt ((getBounds vs).max.sub (getBounds vs).min) ≠ 0 :=
      ne_of_gt (mul_pos hs hL)
    have := rescaled_transformed vs s
      (length Real.sqrt ((getBounds vs).max.sub (getBounds vs).min)) t
      (centerOf (getBounds vs)) hs hL
    simp only [standardize, scalingOf, floatDiv, hlen, if_neg hne0, hcen]
    exact congrArg Outcome.returned this

/-- C17: `standardize` keeps the deduplicated mesh well formed.  For every mesh with a
non-degenerate bounding box, in exact real arithmetic, `standardize` applies one
injective map to every vertex, so the number of vertices is unchanged and distinct
positions stay distinct.  Hence, when the deduplication loop of `loadObj` has
produced a state whose vertices have a non-degenerate bounding box, `loadObj`
returns with `m_indices` unchanged, as many vertices as before, a vertex sequence
that is still duplicate-free and every index still in range. -/
theorem loadObj_well_formed (attrib : attrib_t ℝ) (shapes : List shape_t)
    (st : LoadState ℝ) (hrun : dedup attrib shapes = Except.ok st)
    (hnd : NonDegenerate st.m_vertices) :
    (∀ vs : List (Vertex ℝ), NonDegenerate vs →
      ∃ f : Vertex ℝ → Vertex ℝ, Function.Injective f ∧
        standardize Real.sqrt vs = Outcome.returned (vs.map f)) ∧
    ∃ out, standardize Real.sqrt st.m_vertices = Outcome.returned out ∧
      loadObj Real.sqrt attrib shapes = Outcome.returned
        { m_vertices := out, m_indices := st.m_indices, hash := st.hash } ∧
      out.length = st.m_vertices.length ∧
      out.Nodup ∧
      ∀ n ∈ st.m_indices, n < out.length := by
  have gen : ∀ vs : List (Vertex ℝ), NonDegenerate vs →
      ∃ f : Vertex ℝ → Vertex ℝ, Function.Injective f ∧
        standardize Real.sqrt vs = Outcome.returned (vs.map f) := by
    intro vs h
    have hs : (0.5 : ℝ) / length Real.sqrt ((getBounds vs).max.sub (getBounds vs).min) ≠ 0 :=
      div_ne_zero (by norm_num) (ne_of_gt (diag_length_pos vs h))
    exact ⟨_, rescale_injective (centerOf (getBounds vs)) _ hs,
      standardize_of_nonDegenerate vs h⟩
  refine ⟨gen, ?_⟩
  obtain ⟨f, hf, hstd⟩ := gen st.m_vertices hnd
  obtain ⟨st2, hrun2, hinv⟩ := dedup_inv attrib shapes
    (inRange_of_dedup_ok attrib shapes st hrun)
  rw [hrun] at hrun2
  cases hrun2
  have hlen : (st.m_vertices.map f).length = st.m_vertices.length := List.length_map _ _
  refine ⟨_, hstd, loadObj_of_dedup_ok attrib shapes st _ hrun hstd, hlen,
    hinv.nodup.map hf, ?_⟩
  intro n hn
  rw [hlen]
  exact hinv.index_lt n hn

/-- Witness of C17: a triangle with vertices `(0, 0, 0)` and `(3, 4, 0)` whose third
corner repeats the first. -/
theorem loadObj_well_formed_witness :
    (dedup (⟨[0, 0, 0, 3, 4, 0]⟩ : attrib_t ℝ) [⟨⟨[⟨0⟩, ⟨1⟩, ⟨0⟩]⟩⟩]
        = Except.ok { m_vertices := [⟨⟨0, 0, 0⟩⟩, ⟨⟨3, 4, 0⟩⟩]
                      m_indices := [0, 1, 0]
                      hash := [(⟨⟨3, 4, 0⟩⟩, 1), (⟨⟨0, 0, 0⟩⟩, 0)] } ∧
      NonDegenerate ([⟨⟨0, 0, 0⟩⟩, ⟨⟨3, 4, 0⟩⟩] : List (Vertex ℝ))) ∧
    ((∀ vs : List (Vertex ℝ), NonDegenerate vs →
      ∃ f : Vertex ℝ → Vertex ℝ, Function.Injective f ∧
        standardize Real.sqrt vs = Outcome.returned (vs.map f)) ∧
    ∃ out, standardize Real.sqrt [⟨⟨0, 0, 0⟩⟩, ⟨⟨3, 4, 0⟩⟩] = Outcome.returned out ∧
      loadObj Real.sqrt (⟨[0, 0, 0, 3, 4, 0]⟩ : attrib_t ℝ) [⟨⟨[⟨0⟩, ⟨1⟩, ⟨0⟩]⟩⟩]
        = Outcome.returned
          { m_vertices := out, m_indices := [0, 1, 0]
            hash := [(⟨⟨3, 4, 0⟩⟩, 1), (⟨⟨0, 0, 0⟩⟩, 0)] } ∧
      out.length = ([⟨⟨0, 0, 0⟩⟩, ⟨⟨3, 4, 0⟩⟩] : List (Vertex ℝ)).length ∧
      out.Nodup ∧
      ∀ n ∈ [0, 1, 0], n < out.length) :=
  ⟨⟨dedup_real_example, nonDegenerate_pair⟩,
    loadObj_well_formed (⟨[0, 0, 0, 3, 4, 0]⟩ : attrib_t ℝ) [⟨⟨[⟨0⟩, ⟨1⟩, ⟨0⟩]⟩⟩]
      { m_vertices := [⟨⟨0, 0, 0⟩⟩, ⟨⟨3, 4, 0⟩⟩]
        m_indices := [0, 1, 0]
        hash := [(⟨⟨3, 4, 0⟩⟩, 1), (⟨⟨0, 0, 0⟩⟩, 0)] }
      dedup_real_example nonDegenerate_pair⟩

theorem inFloatRange_pair_transformed :
    InFloatRange (transformed 2 ⟨1, 1, 1⟩
      ([⟨⟨0, 0, 0⟩⟩, ⟨⟨3, 4, 0⟩⟩] : List (Vertex ℝ))) := by
  intro v hv
  simp only [transformed, List.map_cons, List.map_nil, List.mem_cons, List.mem_singleton,
    List.not_mem_nil, or_false] at hv
  rcases hv with rfl | rfl <;>
    (simp only [vec3.InFloatRange, vec3.affine, FLT_LOWEST, FLT_MAX]; norm_num)

/-- C18: `standardize` is invariant under translation and positive uniform scaling
of its input.  For every mesh with a non-degenerate bounding box, every offset `t`
and every factor `s > 0` (with the coordinates of both meshes in the range of
`float`), in exact real arithmetic, standardizing the mesh whose vertices are
`s * p + t` returns the same list of positions, vertex by vertex, as standardizing
the mesh with the vertices `p`. -/
theorem standardize_similarity_invariant (vs : List (Vertex ℝ)) (s : ℝ) (t : vec3 ℝ)
    (hs : 0 < s) (hnd : NonDegenerate vs) (hr : InFloatRange vs)
    (hr2 : InFloatRange (transformed s t vs)) :
    ∃ out, standardize Real.sqrt vs = Outcome.returned out ∧
      standardize Real.sqrt (transformed s t vs) = Outcome.returned out ∧
      out.length = vs.length :=
  ⟨_, standardize_of_nonDegenerate vs hnd, standardize_transformed vs s t hs hnd hr hr2,
    by simp [rescaled]⟩

/-- Witness of C18: the mesh `(0, 0, 0)`, `(3, 4, 0)` scaled by 2 and moved by
`(1, 1, 1)`. -/
theorem standardize_similarity_invariant_witness :
    ((0 : ℝ) < 2 ∧
      NonDegenerate ([⟨⟨0, 0, 0⟩⟩, ⟨⟨3, 4, 0⟩⟩] : List (Vertex ℝ)) ∧
      InFloatRange ([⟨⟨0, 0, 0⟩⟩, ⟨⟨3, 4, 0⟩⟩] : List (Vertex ℝ)) ∧
      InFloatRange (transformed 2 ⟨1, 1, 1⟩
        ([⟨⟨0, 0, 0⟩⟩, ⟨⟨3, 4, 0⟩⟩] : List (Vertex ℝ)))) ∧
    ∃ out, standardize Real.sqrt [⟨⟨0, 0, 0⟩⟩, ⟨⟨3, 4, 0⟩⟩] = Outcome.returned out ∧
      standardize Real.sqrt (transformed 2 ⟨1, 1, 1⟩ [⟨⟨0, 0, 0⟩⟩, ⟨⟨3, 4, 0⟩⟩])
        = Outcome.returned out ∧
      out.length = ([⟨⟨0, 0, 0⟩⟩, ⟨⟨3, 4, 0⟩⟩] : List (Vertex ℝ)).length :=
  ⟨⟨by norm_num, nonDegenerate_pair, inFloatRange_pair, inFloatRange_pair_transformed⟩,
    standardize_similarity_invariant _ 2 ⟨1, 1, 1⟩ (by norm_num) nonDegenerate_pair
      inFloatRange_pair inFloatRange_pair_transformed⟩

/-- C15, the code at the failing input: for the mesh with vertices `(0, 0, 0)` and
`(3, 4, 0)`, `standardize` returns `(-0.15, -0.2, 0)` and `(0.15, 0.2, 0)`.  The
bounding box of the output is `[-0.15, 0.15] x [-0.2, 0.2] x [0, 0]`: its largest
extent, on the `y` axis, spans `[-0.2, 0.2]`, and no axis spans `[-1, 1]`. -/
theorem standardize_pair_extent :
    NonDegenerate ([⟨⟨0, 0, 0⟩⟩, ⟨⟨3, 4, 0⟩⟩] : List (Vertex ℝ)) ∧
    standardize Real.sqrt [⟨⟨0, 0, 0⟩⟩, ⟨⟨3, 4, 0⟩⟩]
      = Outcome.returned [⟨⟨-0.15, -0.2, 0⟩⟩, ⟨⟨0.15, 0.2, 0⟩⟩] ∧
    (getBounds ([⟨⟨-0.15, -0.2, 0⟩⟩, ⟨⟨0.15, 0.2, 0⟩⟩] : List (Vertex ℝ))).max
      = ⟨0.15, 0.2, 0⟩ ∧
    (getBounds ([⟨⟨-0.15, -0.2, 0⟩⟩, ⟨⟨0.15, 0.2, 0⟩⟩] : List (Vertex ℝ))).min
      = ⟨-0.15, -0.2, 0⟩ ∧
    ∀ a, (getBounds ([⟨⟨-0.15, -0.2, 0⟩⟩, ⟨⟨0.15, 0.2, 0⟩⟩] : List (Vertex ℝ))).max.get a
      ≠ 1 := by
  have hb : getBounds ([⟨⟨-0.15, -0.2, 0⟩⟩, ⟨⟨0.15, 0.2, 0⟩⟩] : List (Vertex ℝ))
      = { max := ⟨0.15, 0.2, 0⟩, min := ⟨-0.15, -0.2, 0⟩ } := by
    simp only [getBounds, List.foldl_cons, List.foldl_nil, vec3.max, vec3.min, vec3.splat,
      FLT_LOWEST, FLT_MAX]
    norm_num
  refine ⟨nonDegenerate_pair, standardize_pair, by rw [hb], by rw [hb], ?_⟩
  intro a
  rw [hb]
  cases a <;> simp only [vec3.get] <;> norm_num

/-! ## Proofs: first-seen order -/

/-- The list of first occurrences, as it appears in `DedupInv`. -/
theorem firstSeen_append {α : Type} [DecidableEq α] (ps : List α) (q : α) :
    ((ps ++ [q]).reverse.dedup).reverse =
      if q ∈ ps then (ps.reverse.dedup).reverse else (ps.reverse.dedup).reverse ++ [q] := by
  simp only [List.reverse_append, List.reverse_cons, List.reverse_nil, List.nil_append,
    List.singleton_append]
  by_cases h : q ∈ ps
  · rw [if_pos h, List.dedup_cons_of_mem (List.mem_reverse.mpr h)]
  · rw [if_neg h, List.dedup_cons_of_not_mem (fun h2 => h (List.mem_reverse.mp h2))]
    simp

theorem firstSeen_length {α : Type} [DecidableEq α] (ps : List α) :
    ((ps.reverse.dedup).reverse).length = ps.toFinset.card := by
  rw [List.length_reverse, ← List.toFinset_card_of_nodup (List.nodup_dedup _)]
  congr 1
  ext v
  simp

theorem firstSeen_mem {α : Type} [DecidableEq α] (ps : List α) (p : α) :
    p ∈ (ps.reverse.dedup).reverse ↔ p ∈ ps := by
  simp

theorem firstSeenRank_append_of_mem {α : Type} [DecidableEq α] (ps qs : List α) (p : α)
    (h : p ∈ ps) : firstSeenRank (ps ++ qs) p = firstSeenRank ps p := by
  unfold firstSeenRank
  rw [List.indexOf_append_of_mem h,
    List.take_append_of_le_length (List.indexOf_le_length)]

theorem firstSeenRank_concat_new {α : Type} [DecidableEq α] (ps : List α) (q : α)
    (h : q ∉ ps) : firstSeenRank (ps ++ [q]) q = ps.toFinset.card := by
  unfold firstSeenRank
  rw [List.indexOf_append_of_not_mem h, List.indexOf_cons_self, Nat.add_zero, List.take_left]

/-- In the list of first occurrences, `p` stands at place `firstSeenRank ps p`. -/
theorem firstSeen_getElem {α : Type} [DecidableEq α] (ps : List α) :
    ∀ p ∈ ps, ((ps.reverse.dedup).reverse)[firstSeenRank ps p]? = some p := by
  induction ps using List.reverseRecOn with
  | nil => intro p hp; cases hp
  | append_singleton ps q ih =>
    intro p hp
    rw [firstSeen_append]
    by_cases hq : q ∈ ps
    · have hp2 : p ∈ ps := by
        rcases List.mem_append.mp hp with h | h
        · exact h
        · rw [List.mem_singleton.mp h]; exact hq
      rw [if_pos hq, firstSeenRank_append_of_mem ps [q] p hp2]
      exact ih p hp2
    · rw [if_neg hq]
      by_cases hp2 : p ∈ ps
      · rw [firstSeenRank_append_of_mem ps [q] p hp2]
        exact getElem?_append_singleton_of_some _ _ _ _ (ih p hp2)
      · have hpq : p = q := by
          rcases List.mem_append.mp hp with h | h
          · exact absurd h hp2
          · exact List.mem_singleton.mp h
        subst hpq
        rw [firstSeenRank_concat_new ps p hq, ← firstSeen_length]
        exact List.getElem?_concat_length _ _

/-- In a list without duplicates an element stands at one place only. -/
theorem nodup_getElem?_inj {α : Type} {l : List α} (h : l.Nodup) {i j : Nat} {a : α}
    (hi : l[i]? = some a) (hj : l[j]? = some a) : i = j := by
  obtain ⟨hi1, hi2⟩ := List.getElem?_eq_some.mp hi
  obtain ⟨hj1, hj2⟩ := List.getElem?_eq_some.mp hj
  exact (List.Nodup.getElem_inj_iff h).mp (hi2.trans hj2.symm)

theorem indexOf_append_left_of_mem {α : Type} [DecidableEq α] (xs ys : List α) (a : α)
    (h : a ∈ xs) : (xs ++ ys).indexOf a = xs.indexOf a :=
  List.indexOf_append_of_mem h

theorem firstSeenRank_lt_of_indexOf_lt {α : Type} [DecidableEq α] (ps : List α) (p q : α)
    (hp : p ∈ ps) (h : ps.indexOf p < ps.indexOf q) :
    firstSeenRank ps p < firstSeenRank ps q := by
  unfold firstSeenRank
  apply Finset.card_lt_card
  rw [Finset.ssubset_iff_of_subset]
  · refine ⟨p, ?_, ?_⟩
    · rw [List.mem_toFinset, List.mem_take_iff_getElem]
      refine ⟨ps.indexOf p, ?_, List.getElem_indexOf _⟩
      have := List.indexOf_lt_length.mpr hp
      omega
    · rw [List.mem_toFinset, List.mem_take_iff_getElem]
      rintro ⟨i, hi, hpi⟩
      have hi2 : i < ps.indexOf p := by omega
      have hlt : i < ps.length := by
        have := List.indexOf_lt_length.mpr hp; omega
      have : p ∈ ps.take (ps.indexOf p) := by
        rw [List.mem_take_iff_getElem]
        exact ⟨i, by omega, hpi⟩
      have h3 := indexOf_append_left_of_mem (ps.take (ps.indexOf p)) (ps.drop (ps.indexOf p)) p this
      rw [List.take_append_drop] at h3
      have h4 := List.indexOf_lt_length.mpr this
      rw [List.length_take] at h4
      omega
  · intro x hx
    rw [List.mem_toFinset] at hx ⊢
    exact List.take_subset_take_left ps (le_of_lt h) hx

theorem indexOf_le_of_getElem? {α : Type} [DecidableEq α] (ps : List α) (j : Nat) (q : α)
    (h : ps[j]? = some q) : ps.indexOf q ≤ j := by
  obtain ⟨hj, hq⟩ := List.getElem?_eq_some.mp h
  have hm : q ∈ ps.take (j + 1) := by
    rw [List.mem_take_iff_getElem]
    exact ⟨j, by omega, hq⟩
  have h3 := indexOf_append_left_of_mem (ps.take (j + 1)) (ps.drop (j + 1)) q hm
  rw [List.take_append_drop] at h3
  have h4 := List.indexOf_lt_length.mpr hm
  rw [List.length_take] at h4
  omega

theorem indexOf_eq_of_new {α : Type} [DecidableEq α] (ps : List α) (k : Nat) (p : α)
    (h : ps[k]? = some p) (hnew : p ∉ ps.take k) : ps.indexOf p = k := by
  have hle := indexOf_le_of_getElem? ps k p h
  by_contra hne
  have hlt : ps.indexOf p < k := by omega
  apply hnew
  rw [List.mem_take_iff_getElem]
  obtain ⟨hk, -⟩ := List.getElem?_eq_some.mp h
  exact ⟨ps.indexOf p, by omega, List.getElem_indexOf _⟩

/-- Among the elements of a non-empty list there is one of the greatest rank: the
number of distinct elements less one. -/
theorem exists_firstSeenRank_pred {α : Type} [DecidableEq α] (ts : List α) (hne : ts ≠ []) :
    ∃ q ∈ ts, firstSeenRank ts q + 1 = ts.toFinset.card := by
  have hpos : 0 < ((ts.reverse.dedup).reverse).length := by
    rw [firstSeen_length, Finset.card_pos]
    obtain ⟨t, rest, rfl⟩ := List.exists_cons_of_ne_nil hne
    exact ⟨t, by simp⟩
  have hlt : ((ts.reverse.dedup).reverse).length - 1 < ((ts.reverse.dedup).reverse).length := by
    omega
  have hget : ((ts.reverse.dedup).reverse)[((ts.reverse.dedup).reverse).length - 1]?
      = some (((ts.reverse.dedup).reverse).get ⟨_, hlt⟩) := by
    rw [List.getElem?_eq_getElem hlt]; rfl
  generalize ((ts.reverse.dedup).reverse).get ⟨_, hlt⟩ = q at hget
  have hq : q ∈ ts := (firstSeen_mem ts q).mp (List.getElem?_mem hget)
  refine ⟨q, hq, ?_⟩
  have hnd : ((ts.reverse.dedup).reverse).Nodup :=
    List.nodup_reverse.mpr (List.nodup_dedup _)
  have := nodup_getElem?_inj hnd (firstSeen_getElem ts q hq) hget
  rw [this, ← firstSeen_length]
  omega

theorem DedupInv.index_eq_rank {K : Type} [DecidableEq K] {st : LoadState K}
    {ps : List (Vertex K)} (hinv : DedupInv st ps) (k : Nat) (p : Vertex K)
    (hk : ps[k]? = some p) : st.m_indices[k]? = some (firstSeenRank ps p) := by
  have hk2 : (ps.map some)[k]? = some (some p) := by
    rw [List.getElem?_map, hk]; rfl
  rw [← hinv.indices_eq, List.getElem?_map] at hk2
  cases hn : st.m_indices[k]? with
  | none => rw [hn] at hk2; cases hk2
  | some n =>
    rw [hn] at hk2
    have hk3 : some (st.m_vertices[n]?) = some (some p) := hk2
    have hv : st.m_vertices[n]? = some p := Option.some.inj hk3
    have hr : st.m_vertices[firstSeenRank ps p]? = some p := by
      rw [hinv.vertices_eq]
      exact firstSeen_getElem ps p (List.getElem?_mem hk)
    rw [nodup_getElem?_inj hinv.nodup hv hr]

theorem DedupInv.sorted_by_first_occurrence {K : Type} [DecidableEq K] {st : LoadState K}
    {ps : List (Vertex K)} (hinv : DedupInv st ps) :
    st.m_vertices.Pairwise (fun v w => ps.indexOf v < ps.indexOf w) := by
  rw [List.pairwise_iff_getElem]
  intro i j hi hj hij
  have hvi : st.m_vertices[i]? = some st.m_vertices[i] := List.getElem?_eq_getElem hi
  have hvj : st.m_vertices[j]? = some st.m_vertices[j] := List.getElem?_eq_getElem hj
  generalize st.m_vertices[i] = v at hvi
  generalize st.m_vertices[j] = w at hvj
  have hv : v ∈ ps := (hinv.mem_iff v).mp (List.getElem?_mem hvi)
  have hw : w ∈ ps := (hinv.mem_iff w).mp (List.getElem?_mem hvj)
  have hrv : st.m_vertices[firstSeenRank ps v]? = some v := by
    rw [hinv.vertices_eq]; exact firstSeen_getElem ps v hv
  have hrw : st.m_vertices[firstSeenRank ps w]? = some w := by
    rw [hinv.vertices_eq]; exact firstSeen_getElem ps w hw
  have ei := nodup_getElem?_inj hinv.nodup hvi hrv
  have ej := nodup_getElem?_inj hinv.nodup hvj hrw
  by_contra hcon
  rcases Nat.lt_or_ge (ps.indexOf w) (ps.indexOf v) with h | h
  · have := firstSeenRank_lt_of_indexOf_lt ps w v hw h
    omega
  · have heq : ps.indexOf v = ps.indexOf w := by omega
    have hvw : v = w := (List.indexOf_inj hv hw).mp heq
    subst hvw
    omega

/-- C13: first-seen order of the vertex sequence.  When every corner is in range,
`m_vertices` lists the distinct corner positions, each once, in the order of their
first occurrence in the corner stream `ps` (shapes in order, corners in order).  The
index written for a corner is the number of distinct positions whose first
occurrence precedes the first occurrence of the position of that corner; the first
corner gets index 0; and a corner with a position not seen before gets the number of
distinct positions seen so far, which is above every index written before it and,
after the first corner, one more than the largest of them. -/
theorem dedup_first_seen_order {K : Type} [DecidableEq K] (attrib : attrib_t K)
    (shapes : List shape_t) (h : InRange attrib shapes) :
    ∃ st, dedup attrib shapes = Except.ok st ∧
      st.m_vertices.Nodup ∧
      (∀ v, v ∈ st.m_vertices ↔ v ∈ cornerPositions attrib (corners shapes)) ∧
      st.m_vertices.Pairwise (fun v w =>
        (cornerPositions attrib (corners shapes)).indexOf v
          < (cornerPositions attrib (corners shapes)).indexOf w) ∧
      (∀ p ∈ cornerPositions attrib (corners shapes),
        st.m_vertices[firstSeenRank (cornerPositions attrib (corners shapes)) p]?
          = some p) ∧
      (∀ (k : Nat) (index : index_t), (corners shapes)[k]? = some index →
        ∃ p, cornerPosition attrib index = some p ∧
          (cornerPositions attrib (corners shapes))[k]? = some p ∧
          st.m_indices[k]?
            = some (firstSeenRank (cornerPositions attrib (corners shapes)) p)) ∧
      (corners shapes ≠ [] → st.m_indices[0]? = some 0) ∧
      (∀ (k : Nat) (p : Vertex K),
        (cornerPositions attrib (corners shapes))[k]? = some p →
        p ∉ (cornerPositions attrib (corners shapes)).take k →
        st.m_indices[k]?
            = some (((cornerPositions attrib (corners shapes)).take k).toFinset.card) ∧
        (∀ j n, j < k → st.m_indices[j]? = some n →
          n < ((cornerPositions attrib (corners shapes)).take k).toFinset.card) ∧
        (0 < k → ∃ j, j < k ∧ st.m_indices[j]? = some
          (((cornerPositions attrib (corners shapes)).take k).toFinset.card - 1))) := by
  obtain ⟨st, hrun, hinv⟩ := dedup_inv attrib shapes h
  have hin := inRange_corners attrib shapes h
  have hmap := cornerPositions_map_some attrib (corners shapes) hin
  generalize hps : cornerPositions attrib (corners shapes) = ps at hinv hmap
  have hrank_new : ∀ (k : Nat) (p : Vertex K), ps[k]? = some p → p ∉ ps.take k →
      firstSeenRank ps p = (ps.take k).toFinset.card := by
    intro k p hk hnew
    unfold firstSeenRank
    rw [indexOf_eq_of_new ps k p hk hnew]
  refine ⟨st, hrun, hinv.nodup, hinv.mem_iff, hinv.sorted_by_first_occurrence, ?_, ?_, ?_, ?_⟩
  · intro p hp
    rw [hinv.vertices_eq]
    exact firstSeen_getElem ps p hp
  · intro k index hk
    obtain ⟨i, vx, vy, vz, -, -, -, -, hpos, -⟩ :=
      cornerPosition_of_inRange attrib index (hin index (List.getElem?_mem hk))
    have hk2 : ((corners shapes).map (cornerPosition attrib))[k]?
        = some (some ⟨⟨vx, vy, vz⟩⟩) := by
      rw [List.getElem?_map, hk]; simp [hpos]
    rw [hmap, List.getElem?_map] at hk2
    cases hp : ps[k]? with
    | none => rw [hp] at hk2; cases hk2
    | some p =>
      rw [hp] at hk2
      have hk3 : some (some p) = some (some (⟨⟨vx, vy, vz⟩⟩ : Vertex K)) := hk2
      have hpe : p = ⟨⟨vx, vy, vz⟩⟩ := Option.some.inj (Option.some.inj hk3)
      subst hpe
      exact ⟨_, hpos, rfl, hinv.index_eq_rank k _ hp⟩
  · intro hne
    have hlen : ps.length = (corners shapes).length := by
      rw [← hps]; exact cornerPositions_length attrib _ hin
    have hpne : ps ≠ [] := by
      intro he; rw [he] at hlen
      exact hne (List.length_eq_zero.mp hlen.symm)
    obtain ⟨p, rest, rfl⟩ := List.exists_cons_of_ne_nil hpne
    have := hinv.index_eq_rank 0 p (List.getElem?_cons_zero)
    rw [this]
    simp [firstSeenRank]
  · intro k p hk hnew
    have hr := hrank_new k p hk hnew
    refine ⟨by rw [← hr]; exact hinv.index_eq_rank k p hk, ?_, ?_⟩
    · intro j n hj hn
      obtain ⟨hk1, -⟩ := List.getElem?_eq_some.mp hk
      have hjl : j < ps.length := by omega
      have hq : ps[j]? = some ps[j] := List.getElem?_eq_getElem hjl
      generalize ps[j] = q at hq
      have hnq := hinv.index_eq_rank j q hq
      rw [hn] at hnq
      have hnq2 : n = firstSeenRank ps q := Option.some.inj hnq
      rw [hnq2, ← hr]
      apply firstSeenRank_lt_of_indexOf_lt ps q p (List.getElem?_mem hq)
      have := indexOf_le_of_getElem? ps j q hq
      rw [indexOf_eq_of_new ps k p hk hnew]
      omega
    · intro hk0
      obtain ⟨hk1, -⟩ := List.getElem?_eq_some.mp hk
      have hne : ps.take k ≠ [] := by
        intro he
        have := congrArg List.length he
        rw [List.length_take, List.length_nil] at this
        omega
      obtain ⟨q, hq, hqr⟩ := exists_firstSeenRank_pred (ps.take k) hne
      have hsplit : ps = ps.take k ++ ps.drop k := (List.take_append_drop k ps).symm
      have hrq : firstSeenRank ps q = firstSeenRank (ps.take k) q := by
        conv_lhs => rw [hsplit]
        exact firstSeenRank_append_of_mem _ _ q hq
      have hqps : q ∈ ps := List.mem_of_mem_take hq
      have hidx : ps.indexOf q < k := by
        have h3 := indexOf_append_left_of_mem (ps.take k) (ps.drop k) q hq
        rw [List.take_append_drop] at h3
        have h4 := List.indexOf_lt_length.mpr hq
        rw [List.length_take] at h4
        omega
      refine ⟨ps.indexOf q, hidx, ?_⟩
      have := hinv.index_eq_rank (ps.indexOf q) q (List.getElem?_indexOf hqps)
      rw [this, hrq]
      congr 1
      omega

/-- Witness of C13: the two-shape mesh, whose fourth corner repeats the position of
the second under another vertex index. -/
theorem dedup_first_seen_order_witness :
    InRange twoShapeAttrib twoShapes ∧
    ∃ st, dedup twoShapeAttrib twoShapes = Except.ok st ∧
      st.m_vertices.Nodup ∧
      (∀ v, v ∈ st.m_vertices ↔ v ∈ cornerPositions twoShapeAttrib (corners twoShapes)) ∧
      st.m_vertices.Pairwise (fun v w =>
        (cornerPositions twoShapeAttrib (corners twoShapes)).indexOf v
          < (cornerPositions twoShapeAttrib (corners twoShapes)).indexOf w) ∧
      (∀ p ∈ cornerPositions twoShapeAttrib (corners twoShapes),
        st.m_vertices[firstSeenRank (cornerPositions twoShapeAttrib (corners twoShapes)) p]?
          = some p) ∧
      (∀ (k : Nat) (index : index_t), (corners twoShapes)[k]? = some index →
        ∃ p, cornerPosition twoShapeAttrib index = some p ∧
          (cornerPositions twoShapeAttrib (corners twoShapes))[k]? = some p ∧
          st.m_indices[k]?
            = some (firstSeenRank (cornerPositions twoShapeAttrib (corners twoShapes)) p)) ∧
      (corners twoShapes ≠ [] → st.m_indices[0]? = some 0) ∧
      (∀ (k : Nat) (p : Vertex ℚ),
        (cornerPositions twoShapeAttrib (corners twoShapes))[k]? = some p →
        p ∉ (cornerPositions twoShapeAttrib (corners twoShapes)).take k →
        st.m_indices[k]?
            = some (((cornerPositions twoShapeAttrib (corners twoShapes)).take k).toFinset.card) ∧
        (∀ j n, j < k → st.m_indices[j]? = some n →
          n < ((cornerPositions twoShapeAttrib (corners twoShapes)).take k).toFinset.card) ∧
        (0 < k → ∃ j, j < k ∧ st.m_indices[j]? = some
          (((cornerPositions twoShapeAttrib (corners twoShapes)).take k).toFinset.card - 1))) :=
  ⟨by decide, dedup_first_seen_order twoShapeAttrib twoShapes (by decide)⟩

/-! ## Proofs: machine arithmetic in the deduplication loop -/

theorem wrapInt32_of_representable (n : Int) (h1 : -2147483648 ≤ n) (h2 : n ≤ 2147483647) :
    wrapInt32 n = n := by
  unfold wrapInt32; omega

/-- A checked access with a representable `int` argument is the access of the exact
model, for every vector of at most `2 ^ 64 - 2 ^ 31` entries. -/
theorem vectorAtInt32_eq {α : Type} (xs : List α) (n : Int) (h1 : -2147483648 ≤ n)
    (h2 : n ≤ 2147483647) (hlen : xs.length ≤ 18446744071562067968) :
    vectorAtInt32 xs (wrapInt32 n) = vectorAt xs n := by
  rw [wrapInt32_of_representable n h1 h2]
  unfold vectorAtInt32 vectorAt toSizeT
  by_cases h0 : 0 ≤ n
  · rw [if_pos h0]
    have : n % 18446744073709551616 = n := Int.emod_eq_of_lt h0 (by omega)
    rw [this]
  · rw [if_neg h0]
    have hge : xs.length ≤ (n % 18446744073709551616).toNat := by omega
    rw [List.getElem?_eq_none hge]

/-- Without overflow an iteration in machine arithmetic is the iteration of the exact
model. -/
theorem cornerStepInt32_eq {K : Type} [DecidableEq K] (attrib : attrib_t K)
    (st : LoadState K) (index : index_t) (h : NoOverflow index)
    (hlen : attrib.vertices.length ≤ 18446744071562067968) :
    cornerStepInt32 attrib st index = cornerStep attrib st index := by
  obtain ⟨h1, h2⟩ := h
  have hs : wrapInt32 (3 * index.vertex_index) = 3 * index.vertex_index :=
    wrapInt32_of_representable _ h1 (by omega)
  simp only [cornerStepInt32, cornerStep, hs]
  rw [vectorAtInt32_eq attrib.vertices (3 * index.vertex_index + 0) (by omega) (by omega) hlen,
    vectorAtInt32_eq attrib.vertices (3 * index.vertex_index + 1) (by omega) (by omega) hlen,
    vectorAtInt32_eq attrib.vertices (3 * index.vertex_index + 2) (by omega) (by omega) hlen]

theorem shapeLoopInt32_eq {K : Type} [DecidableEq K] (attrib : attrib_t K)
    (hlen : attrib.vertices.length ≤ 18446744071562067968) :
    ∀ (cs : List index_t) (st : LoadState K), (∀ index ∈ cs, NoOverflow index) →
      shapeLoopInt32 attrib cs st = shapeLoop attrib cs st
  | [], _, _ => rfl
  | index :: rest, st, h => by
    simp only [shapeLoopInt32, shapeLoop,
      cornerStepInt32_eq attrib st index (h index (List.mem_cons_self _ _)) hlen]
    cases cornerStep attrib st index with
    | error e => rfl
    | ok st1 =>
      exact shapeLoopInt32_eq attrib hlen rest st1 (fun c hc => h c (List.mem_cons_of_mem _ hc))

theorem shapesLoopInt32_eq {K : Type} [DecidableEq K] (attrib : attrib_t K)
    (hlen : attrib.vertices.length ≤ 18446744071562067968) :
    ∀ (shapes : List shape_t) (st : LoadState K),
      (∀ shape ∈ shapes, ∀ index ∈ shape.mesh.indices, NoOverflow index) →
      shapesLoopInt32 attrib shapes st = shapesLoop attrib shapes st
  | [], _, _ => rfl
  | shape :: rest, st, h => by
    simp only [shapesLoopInt32, shapesLoop,
      shapeLoopInt32_eq attrib hlen shape.mesh.indices st (h shape (List.mem_cons_self _ _))]
    cases shapeLoop attrib shape.mesh.indices st with
    | error e => rfl
    | ok st1 =>
      exact shapesLoopInt32_eq attrib hlen rest st1
        (fun s hs => h s (List.mem_cons_of_mem _ hs))

/-- When no corner overflows, the loop in machine arithmetic is the loop of the exact
model: every result about `dedup` is then a result about `dedupInt32`. -/
theorem dedupInt32_eq_dedup {K : Type} [DecidableEq K] (attrib : attrib_t K)
    (shapes : List shape_t) (hlen : attrib.vertices.length ≤ 18446744071562067968)
    (h : ∀ shape ∈ shapes, ∀ index ∈ shape.mesh.indices, NoOverflow index) :
    dedupInt32 attrib shapes = dedup attrib shapes :=
  shapesLoopInt32_eq attrib hlen shapes initialState h

/-- In-range corners of an attribute array of fewer than `2 ^ 31` entries do not
overflow. -/
theorem noOverflow_of_inRange {K : Type} (attrib : attrib_t K) (shapes : List shape_t)
    (hlen : attrib.vertices.length ≤ 2147483648) (h : InRange attrib shapes) :
    ∀ shape ∈ shapes, ∀ index ∈ shape.mesh.indices, NoOverflow index := by
  intro shape hs index hi
  obtain ⟨h0, h2⟩ := h shape hs index hi
  unfold NoOverflow
  omega

/-- In-range corners of an attribute array of fewer than `2 ^ 31` entries: the loop in
machine arithmetic is the loop of the exact model. -/
theorem dedupInt32_eq_dedup_of_inRange {K : Type} [DecidableEq K] (attrib : attrib_t K)
    (shapes : List shape_t) (hlen : attrib.vertices.length ≤ 2147483648)
    (h : InRange attrib shapes) : dedupInt32 attrib shapes = dedup attrib shapes :=
  dedupInt32_eq_dedup attrib shapes (le_trans hlen (by norm_num))
    (noOverflow_of_inRange attrib shapes hlen h)

/-- Without overflow the loop in machine arithmetic fails exactly on an out-of-range
corner, with `out_of_range`, and returns normally exactly when every corner is in
range. -/
theorem dedupInt32_error_iff_of_noOverflow {K : Type} [DecidableEq K] (attrib : attrib_t K)
    (shapes : List shape_t) (hlen : attrib.vertices.length ≤ 18446744071562067968)
    (h : ∀ shape ∈ shapes, ∀ index ∈ shape.mesh.indices, NoOverflow index) :
    ((∃ e, dedupInt32 attrib shapes = Except.error e) ↔
      ∃ index ∈ corners shapes, index.vertex_index < 0 ∨
        (attrib.vertices.length : Int) ≤ 3 * index.vertex_index + 2) ∧
    (∀ e, dedupInt32 attrib shapes = Except.error e → e = Exception.out_of_range) ∧
    ((∃ st, dedupInt32 attrib shapes = Except.ok st) ↔ InRange attrib shapes) := by
  rw [dedupInt32_eq_dedup attrib shapes hlen h]
  exact dedup_error_iff attrib shapes

/-- C11, the code at the failing inputs.  The attribute array has six entries.  The
corner with vertex index `1431655766` is out of range (`3 * i + 2 >= 6`), but the
`int` product `3 * 1431655766` wraps to `2`: `at` reads entries 2, 3 and 4 and the
loop returns normally with the vertex `(0, 1, 0)`.  The corner with the negative
vertex index `-1431655765` is out of range, but `3 * -1431655765` wraps to `1`: `at`
reads entries 1, 2 and 3 and the loop returns normally with the vertex `(0, 0, 1)`.
No error is raised for either. -/
theorem dedupInt32_overflow_no_error :
    (¬ InRange sixAttrib [⟨⟨[⟨1431655766⟩]⟩⟩] ∧
      (sixAttrib.vertices.length : Int) ≤ 3 * 1431655766 + 2 ∧
      wrapInt32 (3 * 1431655766) = 2 ∧
      dedupInt32 sixAttrib [⟨⟨[⟨1431655766⟩]⟩⟩]
        = Except.ok { m_vertices := [⟨⟨0, 1, 0⟩⟩]
                      m_indices := [0]
                      hash := [(⟨⟨0, 1, 0⟩⟩, 0)] }) ∧
    (¬ InRange sixAttrib [⟨⟨[⟨-1431655765⟩]⟩⟩] ∧
      (-1431655765 : Int) < 0 ∧
      wrapInt32 (3 * -1431655765) = 1 ∧
      dedupInt32 sixAttrib [⟨⟨[⟨-1431655765⟩]⟩⟩]
        = Except.ok { m_vertices := [⟨⟨0, 0, 1⟩⟩]
                      m_indices := [0]
                      hash := [(⟨⟨0, 0, 1⟩⟩, 0)] }) :=
  ⟨⟨by decide, by decide, by decide, rfl⟩, ⟨by decide, by decide, by decide, rfl⟩⟩

end Select
